import Mathlib

/-!
# The ARM writer of frida-gum (`gum/arch-arm/gumarmwriter.c`)

A shallow embedding of the writer: the buffer is byte-addressed memory, the
pointers `base`, `code` and `GumArmLiteralRef.insn` are byte addresses, and
`pc` is a `guint64`.  A `guint32` is stored and loaded in the byte order of the
host, which is the parameter `be` (`true` on a big-endian host).
-/

namespace GumArm

/-! ## Memory and machine words -/

/-- Byte-addressed memory: the byte held at each address. -/
abbrev Memory := Nat → Nat

/-- The byte at offset `j` (0..3, by increasing address) of the `guint32`
value `v` as the host lays it out in memory. -/
def host_byte (be : Bool) (v : Nat) (j : Nat) : Nat :=
  if be then v / 256 ^ (3 - j) % 256 else v / 256 ^ j % 256

/-- The C store `*(guint32 *) a = v` on the host. -/
def store32 (be : Bool) (mem : Memory) (a v : Nat) : Memory :=
  fun x => if a ≤ x ∧ x < a + 4 then host_byte be v (x - a) else mem x

/-- The C load `*(guint32 *) a` on the host. -/
def load32 (be : Bool) (mem : Memory) (a : Nat) : Nat :=
  if be then
    mem a * 16777216 + mem (a + 1) * 65536 + mem (a + 2) * 256 + mem (a + 3)
  else
    mem a + mem (a + 1) * 256 + mem (a + 2) * 65536 + mem (a + 3) * 16777216

/-- Byte swap of a 32-bit value. -/
def bswap32 (v : Nat) : Nat :=
  v % 256 * 16777216 + v / 256 % 256 * 65536 + v / 65536 % 256 * 256
    + v / 16777216 % 256

/-- GLib's `GUINT32_TO_LE`: the identity on a little-endian host, a byte swap
on a big-endian one. -/
def GUINT32_TO_LE (be : Bool) (v : Nat) : Nat := if be then bswap32 v else v

/-- GLib's `GUINT32_FROM_LE`. -/
def GUINT32_FROM_LE (be : Bool) (v : Nat) : Nat := if be then bswap32 v else v

/-- `gum_memcpy (dst, data, n)` with `data` the `n` source bytes. -/
def gum_memcpy (mem : Memory) (dst : Nat) (data : List Nat) : Memory :=
  fun x => if dst ≤ x ∧ x < dst + data.length then data.getD (x - dst) 0 else mem x

/-- Conversion of an integer to `gint32` (two's complement, 32 bits). -/
def to_gint32 (x : Int) : Int := (x + 2147483648) % 4294967296 - 2147483648

/-! ## Constants and collaborators declared outside `gumarmwriter.c` -/

def GUM_MAX_LITERAL_REF_COUNT : Nat := 100

/-- Modelled from the spec: `GUM_INT12_MASK` of gumdefs.h, which is not in
src/ ("the immediate is masked to 12 bits"). -/
def GUM_INT12_MASK : Nat := 0x00000fff

/-- Modelled from the spec: `GUM_INT24_MASK` of gumdefs.h, which is not in
src/ ("a 24-bit signed word-offset field"). -/
def GUM_INT24_MASK : Nat := 0x00ffffff

/-- Modelled from the spec: `GUM_IS_WITHIN_INT26_RANGE` of gumdefs.h, which is
not in src/ ("fails if the byte distance does not fit a 26-bit signed
range"). -/
def GUM_IS_WITHIN_INT26_RANGE (i : Int) : Bool :=
  decide (-33554432 ≤ i) && decide (i ≤ 33554431)

/-- Modelled from the spec: the `GumOS` enumeration of gumprocess.h, which is
not in src/ ("an enumerated value selecting OS-specific encodings"). -/
inductive GumOS where
  | GUM_OS_WINDOWS
  | GUM_OS_MACOS
  | GUM_OS_LINUX
  | GUM_OS_IOS
  | GUM_OS_ANDROID
  | GUM_OS_QNX
  deriving DecidableEq, Repr

/-- A logical register, given by its number r0..r15. -/
abbrev arm_reg := Fin 16

structure GumArmRegInfo where
  index : Nat
  deriving DecidableEq, Repr

/-- Modelled from the spec: `gum_arm_reg_describe` of gumarmreg.c, which is
not in src/ ("maps a logical register identifier to its numeric encoding
index"). -/
def gum_arm_reg_describe (reg : arm_reg) : GumArmRegInfo := ⟨reg.val⟩

/-! ## The writer -/

structure GumArmLiteralRef where
  /-- address of the instruction word to patch (`guint32 * insn`) -/
  insn : Nat
  /-- the constant to load (`guint32 val`) -/
  val : Nat
  deriving DecidableEq, Repr

/-- The fields of `GumArmWriter` that `gumarmwriter.c` reads and writes,
together with the memory its pointers point into.  `literal_refs` holds the
entries `literal_refs[0 .. literal_refs_len)`. -/
structure GumArmWriter where
  target_os : GumOS
  base : Nat
  code : Nat
  pc : Nat
  literal_refs : List GumArmLiteralRef
  mem : Memory

def gum_arm_writer_reset (writer : GumArmWriter) (native_os : GumOS)
    (code_address : Nat) : GumArmWriter :=
  { writer with
    target_os := native_os
    base := code_address
    code := code_address
    pc := code_address % 2 ^ 64
    literal_refs := [] }

def gum_arm_writer_set_target_os (self : GumArmWriter) (os : GumOS) : GumArmWriter :=
  { self with target_os := os }

def gum_arm_writer_cur (self : GumArmWriter) : Nat := self.code

def gum_arm_writer_skip (self : GumArmWriter) (n_bytes : Nat) : GumArmWriter :=
  { self with code := self.code + n_bytes, pc := (self.pc + n_bytes) % 2 ^ 64 }

/-- The scan `for (cur_slot = first_slot; cur_slot != last_slot; cur_slot++)
if (*cur_slot == r->val) break;` with `n` the number of words from `cur_slot`
to `last_slot`: the value of `cur_slot` when the loop is left. -/
def find_slot (be : Bool) (mem : Memory) (val : Nat) : Nat → Nat → Nat
  | cur_slot, 0 => cur_slot
  | cur_slot, n + 1 =>
    if load32 be mem cur_slot = val then cur_slot
    else find_slot be mem val (cur_slot + 4) n

/-- One iteration of the loop over `literal_refs` in `gum_arm_writer_flush`,
on the memory and `last_slot`.  The pointer difference
`cur_slot - (r->insn + 2)` is the byte difference divided by 4. -/
def flush_ref (be : Bool) (first_slot : Nat) (st : Memory × Nat)
    (r : GumArmLiteralRef) : Memory × Nat :=
  let cur_slot := find_slot be st.1 r.val first_slot ((st.2 - first_slot) / 4)
  let st1 : Memory × Nat :=
    if cur_slot = st.2 then (store32 be st.1 cur_slot r.val, st.2 + 4) else st
  let distance_in_words : Int := ((cur_slot : Int) - ((r.insn : Int) + 8)) / 4
  let insn0 := GUINT32_FROM_LE be (load32 be st1.1 r.insn)
  let insn1 := (insn0 ||| (distance_in_words.natAbs * 4)) % 2 ^ 32
  let insn2 := if distance_in_words ≥ 0 then insn1 ||| (1 <<< 23) else insn1
  (store32 be st1.1 r.insn (GUINT32_TO_LE be insn2), st1.2)

def gum_arm_writer_flush (be : Bool) (self : GumArmWriter) : Bool × GumArmWriter :=
  if self.literal_refs.length > 0 then
    let first_slot := self.code
    let st := self.literal_refs.foldl (flush_ref be first_slot) (self.mem, first_slot)
    (true, { self with
      literal_refs := []
      code := st.2
      pc := (self.pc + (st.2 - first_slot)) % 2 ^ 64
      mem := st.1 })
  else
    (true, self)

def gum_arm_writer_add_literal_reference_here (self : GumArmWriter) (val : Nat) :
    Bool × GumArmWriter :=
  if self.literal_refs.length = GUM_MAX_LITERAL_REF_COUNT then (false, self)
  else (true, { self with literal_refs := self.literal_refs ++ [⟨self.code, val⟩] })

def gum_arm_writer_put_instruction (be : Bool) (self : GumArmWriter) (insn : Nat) :
    GumArmWriter :=
  { self with
    mem := store32 be self.mem self.code (GUINT32_TO_LE be insn)
    code := self.code + 4
    pc := (self.pc + 4) % 2 ^ 64 }

def gum_arm_writer_put_b_imm (be : Bool) (self : GumArmWriter) (target : Nat) :
    Bool × GumArmWriter :=
  let distance_in_bytes : Int :=
    to_gint32 (((target : Int) - (((self.pc + 8) % 2 ^ 64 : Nat) : Int)) % 18446744073709551616)
  if !GUM_IS_WITHIN_INT26_RANGE distance_in_bytes then (false, self)
  else
    let distance_in_words : Int := Int.tdiv distance_in_bytes 4
    (true, gum_arm_writer_put_instruction be self
      (0xea000000 ||| ((distance_in_words % 4294967296).toNat &&& GUM_INT24_MASK)))

def gum_arm_writer_put_ldr_reg_u32 (be : Bool) (self : GumArmWriter) (reg : arm_reg)
    (val : Nat) : Bool × GumArmWriter :=
  let ri := gum_arm_reg_describe reg
  let r := gum_arm_writer_add_literal_reference_here self val
  if !r.1 then (false, r.2)
  else (true, gum_arm_writer_put_instruction be r.2 (0xe51f0000 ||| (ri.index <<< 12)))

def gum_arm_writer_put_ldr_reg_address (be : Bool) (self : GumArmWriter) (reg : arm_reg)
    (address : Nat) : Bool × GumArmWriter :=
  gum_arm_writer_put_ldr_reg_u32 be self reg (address % 2 ^ 32)

def gum_arm_writer_put_add_reg_reg_imm (be : Bool) (self : GumArmWriter)
    (dst_reg src_reg : arm_reg) (imm_val : Nat) : GumArmWriter :=
  let rd := gum_arm_reg_describe dst_reg
  let rs := gum_arm_reg_describe src_reg
  gum_arm_writer_put_instruction be self
    (0xe2800000 ||| rd.index <<< 12 ||| rs.index <<< 16 ||| (imm_val &&& GUM_INT12_MASK))

def gum_arm_writer_put_ldr_reg_reg_imm (be : Bool) (self : GumArmWriter)
    (dst_reg src_reg : arm_reg) (imm_val : Nat) : GumArmWriter :=
  let rd := gum_arm_reg_describe dst_reg
  let rs := gum_arm_reg_describe src_reg
  gum_arm_writer_put_instruction be self
    (0xe5900000 ||| rd.index <<< 12 ||| rs.index <<< 16 ||| (imm_val &&& GUM_INT12_MASK))

def gum_arm_writer_put_nop (be : Bool) (self : GumArmWriter) : GumArmWriter :=
  gum_arm_writer_put_instruction be self 0xe1a00000

def gum_arm_writer_put_breakpoint (be : Bool) (self : GumArmWriter) : GumArmWriter :=
  match self.target_os with
  | _ => gum_arm_writer_put_instruction be self 0xe7f001f0

def gum_arm_writer_put_bytes (self : GumArmWriter) (data : List Nat) :
    Bool × GumArmWriter :=
  let n := data.length
  if n % 4 ≠ 0 then (false, self)
  else
    (true, { self with
      mem := gum_memcpy self.mem self.code data
      code := self.code + 4 * (n / 4)
      pc := (self.pc + n) % 2 ^ 64 })

/-- The pool contents after the scan-or-append step of `gum_arm_writer_flush`
for the value `v`. -/
def pool_add (pool : List Nat) (v : Nat) : List Nat :=
  if v ∈ pool then pool else pool ++ [v]

/-- The distinct values of a list, each once, in order of first occurrence. -/
def first_occurrences : List Nat → List Nat
  | [] => []
  | v :: vs => v :: (first_occurrences vs).filter (fun w => decide (w ≠ v))

/-- The rewriting of a load word in `gum_arm_writer_flush` for the distance
`d` in words: `insn |= ABS (d) * 4; if (d >= 0) insn |= 1 << 23;`. -/
def patch_ldr (insn0 : Nat) (d : Int) : Nat :=
  let insn1 := (insn0 ||| (d.natAbs * 4)) % 2 ^ 32
  if d ≥ 0 then insn1 ||| (1 <<< 23) else insn1

/-- The loop invariant of `gum_arm_writer_flush` on the pool window
`[first_slot, last_slot)`: it holds the words of `pool`. -/
structure PoolInv (be : Bool) (first_slot : Nat) (st : Memory × Nat) (pool : List Nat) :
    Prop where
  last : st.2 = first_slot + 4 * pool.length
  words : ∀ j (hj : j < pool.length), load32 be st.1 (first_slot + 4 * j) = pool[j]
  typed : ∀ v ∈ pool, v < 2 ^ 32

/-! ## The public operations and the reachable states -/

/-- A call of one public operation of the writer, with its arguments. -/
inductive Op where
  | reset (native_os : GumOS) (code_address : Nat)
  | set_target_os (os : GumOS)
  | skip (n_bytes : Nat)
  | flush
  | put_b_imm (target : Nat)
  | put_ldr_reg_address (reg : arm_reg) (address : Nat)
  | put_ldr_reg_u32 (reg : arm_reg) (val : Nat)
  | put_add_reg_reg_imm (dst_reg src_reg : arm_reg) (imm_val : Nat)
  | put_ldr_reg_reg_imm (dst_reg src_reg : arm_reg) (imm_val : Nat)
  | put_nop
  | put_breakpoint
  | put_instruction (insn : Nat)
  | put_bytes (data : List Nat)

/-- The arguments of a call are in the range of their C types. -/
def Op.typed : Op → Prop
  | .skip n_bytes => n_bytes < 2 ^ 32
  | .put_b_imm target => target < 2 ^ 64
  | .put_ldr_reg_address _ address => address < 2 ^ 64
  | .put_ldr_reg_u32 _ val => val < 2 ^ 32
  | .put_add_reg_reg_imm _ _ imm_val => imm_val < 2 ^ 32
  | .put_ldr_reg_reg_imm _ _ imm_val => imm_val < 2 ^ 32
  | .put_instruction insn => insn < 2 ^ 32
  | .put_bytes data => data.length < 2 ^ 32 ∧ ∀ b ∈ data, b < 256
  | _ => True

/-- The state after a call (the returned `gboolean`, if any, is dropped). -/
def Op.apply (be : Bool) (s : GumArmWriter) : Op → GumArmWriter
  | .reset native_os code_address => gum_arm_writer_reset s native_os code_address
  | .set_target_os os => gum_arm_writer_set_target_os s os
  | .skip n_bytes => gum_arm_writer_skip s n_bytes
  | .flush => (gum_arm_writer_flush be s).2
  | .put_b_imm target => (gum_arm_writer_put_b_imm be s target).2
  | .put_ldr_reg_address reg address => (gum_arm_writer_put_ldr_reg_address be s reg address).2
  | .put_ldr_reg_u32 reg val => (gum_arm_writer_put_ldr_reg_u32 be s reg val).2
  | .put_add_reg_reg_imm dst_reg src_reg imm_val =>
    gum_arm_writer_put_add_reg_reg_imm be s dst_reg src_reg imm_val
  | .put_ldr_reg_reg_imm dst_reg src_reg imm_val =>
    gum_arm_writer_put_ldr_reg_reg_imm be s dst_reg src_reg imm_val
  | .put_nop => gum_arm_writer_put_nop be s
  | .put_breakpoint => gum_arm_writer_put_breakpoint be s
  | .put_instruction insn => gum_arm_writer_put_instruction be s insn
  | .put_bytes data => (gum_arm_writer_put_bytes s data).2

/-- The writer states reachable from `gum_arm_writer_reset` (as called by
`gum_arm_writer_init`, on any memory) by a sequence of public operations. -/
inductive Reachable (be : Bool) : GumArmWriter → Prop where
  | init (writer : GumArmWriter) (native_os : GumOS) (code_address : Nat) :
    Reachable be (gum_arm_writer_reset writer native_os code_address)
  | step (s : GumArmWriter) (op : Op) : Reachable be s → op.typed →
    Reachable be (op.apply be s)

/-- The invariant of the pending references: at most
`GUM_MAX_LITERAL_REF_COUNT` of them, in increasing address order, each on a
word between `base` and the cursor that still holds the load emitted by
`gum_arm_writer_put_ldr_reg_u32`. -/
structure Inv (be : Bool) (s : GumArmWriter) : Prop where
  base_le : s.base ≤ s.code
  count : s.literal_refs.length ≤ GUM_MAX_LITERAL_REF_COUNT
  sorted : s.literal_refs.Pairwise (fun a b => a.insn + 4 ≤ b.insn)
  refs : ∀ r ∈ s.literal_refs, s.base ≤ r.insn ∧ r.insn + 4 ≤ s.code ∧ r.val < 2 ^ 32 ∧
    ∃ reg : arm_reg, load32 be s.mem r.insn = GUINT32_TO_LE be (0xe51f0000 ||| (reg.val <<< 12))

/-! ## How the target architecture decodes the emitted words -/

/-- The address a PC-relative load word reads, by the ARM formula: the
instruction address plus 8, plus the low-12-bit displacement when bit 23 is
set, minus it when bit 23 is clear. -/
def ldr_literal_address (insn_address : Nat) (insn : Nat) : Int :=
  if insn.testBit 23 then (insn_address : Int) + 8 + ((insn % 4096 : Nat) : Int)
  else (insn_address : Int) + 8 - ((insn % 4096 : Nat) : Int)

/-- The 24-bit signed word offset held in the low 24 bits of a branch word. -/
def b_word_offset (insn : Nat) : Int :=
  if insn % 16777216 < 8388608 then ((insn % 16777216 : Nat) : Int)
  else ((insn % 16777216 : Nat) : Int) - 16777216

/-- The address a branch word at address `insn_address` jumps to: the sign
extended low 24 bits, times 4, plus the instruction address plus 8. -/
def b_target (insn_address : Nat) (insn : Nat) : Int :=
  (insn_address : Int) + 8 + 4 * b_word_offset insn

/-! ## Sequences of calls -/

/-- A sequence of calls of `gum_arm_writer_put_ldr_reg_u32`, one per entry
(register, value): whether every call returned TRUE, and the final state. -/
def put_ldr_reg_u32_seq (be : Bool) : GumArmWriter → List (arm_reg × Nat) → Bool × GumArmWriter
  | s, [] => (true, s)
  | s, c :: cs =>
    let r := gum_arm_writer_put_ldr_reg_u32 be s c.1 c.2
    let rs := put_ldr_reg_u32_seq be r.2 cs
    (r.1 && rs.1, rs.2)

/-- The literal references recorded by a sequence of successful calls of
`gum_arm_writer_put_ldr_reg_u32` that starts with the cursor at `a`. -/
def seq_refs : Nat → List (arm_reg × Nat) → List GumArmLiteralRef
  | _, [] => []
  | a, c :: cs => ⟨a, c.2⟩ :: seq_refs (a + 4) cs

/-! ## Concrete writers -/

/-- A writer structure before `gum_arm_writer_init`, on zeroed memory. -/
def blank_writer : GumArmWriter :=
  { target_os := .GUM_OS_LINUX, base := 0, code := 0, pc := 0, literal_refs := [],
    mem := fun _ => 0 }

/-- On a little-endian host: reset at 4096, then one constant load. -/
def one_load_writer : GumArmWriter :=
  (Op.put_ldr_reg_u32 0 1).apply false (gum_arm_writer_reset blank_writer .GUM_OS_LINUX 4096)

/-- On a little-endian host: reset at 4096, one constant load into r0, then
4100 skipped bytes. -/
def far_pool_writer : GumArmWriter :=
  (Op.skip 4100).apply false one_load_writer

/-- The three calls `r0 := 0xDEADBEEF`, `r1 := 7`, `r2 := 0xDEADBEEF`. -/
def three_loads : List (arm_reg × Nat) := [(0, 0xDEADBEEF), (1, 7), (2, 0xDEADBEEF)]

/-- A batch of 100 calls `r3 := 5`. -/
def hundred_loads : List (arm_reg × Nat) := List.replicate 100 (3, 5)

/-! ## The end-to-end scenario of the specification -/

/-- The writer reset at `A`, after two calls of
`gum_arm_writer_put_ldr_reg_u32`. -/
def two_loads (be : Bool) (writer : GumArmWriter) (os : GumOS) (A : Nat)
    (reg1 : arm_reg) (val1 : Nat) (reg2 : arm_reg) (val2 : Nat) : GumArmWriter :=
  (gum_arm_writer_put_ldr_reg_u32 be
    (gum_arm_writer_put_ldr_reg_u32 be (gum_arm_writer_reset writer os A) reg1 val1).2
    reg2 val2).2

/-- The writer reset at `A`, after "load r0 with 0xDEADBEEF" and "load r1
with 0xDEADBEEF". -/
def scenario_loads (be : Bool) (writer : GumArmWriter) (os : GumOS) (A : Nat) : GumArmWriter :=
  two_loads be writer os A 0 0xDEADBEEF 1 0xDEADBEEF

/-- The scenario after the branch to `A`. -/
def scenario_branch (be : Bool) (writer : GumArmWriter) (os : GumOS) (A : Nat) : GumArmWriter :=
  (gum_arm_writer_put_b_imm be (scenario_loads be writer os A) A).2

/-- The scenario after the flush. -/
def scenario_flushed (be : Bool) (writer : GumArmWriter) (os : GumOS) (A : Nat) : GumArmWriter :=
  (gum_arm_writer_flush be (scenario_branch be writer os A)).2

/-! ## Runs of public operations -/

/-- The state after a sequence of calls of public operations. -/
def run (be : Bool) (s : GumArmWriter) (ops : List Op) : GumArmWriter :=
  ops.foldl (Op.apply be) s

/-- A call that keeps the cursor word-aligned: a skip by a multiple of 4
bytes, a reset at a word-aligned address, or any other operation. -/
def Op.word_aligned : Op → Prop
  | .skip n_bytes => n_bytes % 4 = 0
  | .reset _ code_address => code_address % 4 = 0
  | _ => True

/-- On a little-endian host: reset at 4096, then one skipped byte. -/
def skipped_byte_writer : GumArmWriter :=
  run false (gum_arm_writer_reset blank_writer .GUM_OS_LINUX 4096) [Op.skip 1]

/-- The pending-reference invariant: at most 100 entries, each on an
instruction slot at or after `base` and strictly before the cursor, distinct
entries on distinct slots. -/
def PendingRefInv (s : GumArmWriter) : Prop :=
  s.literal_refs.length ≤ 100 ∧
  (∀ r ∈ s.literal_refs, s.base ≤ r.insn ∧ r.insn < s.code) ∧
  s.literal_refs.Pairwise (fun a b => a.insn ≠ b.insn)

/-! ## Batches of constant loads -/

/-- A batch of constant loads followed by a flush. -/
def batch_flushed (be : Bool) (s : GumArmWriter) (calls : List (arm_reg × Nat)) : GumArmWriter :=
  (gum_arm_writer_flush be (put_ldr_reg_u32_seq be s calls).2).2

/-! ## Byte order -/

/-- Byte `j` of the little-endian byte sequence of a 32-bit value. -/
def le_byte (v : Nat) (j : Nat) : Nat := v / 256 ^ j % 256

/-- On a big-endian host: reset at 4096, "load r0 with 0xDEADBEEF", flush. -/
def big_endian_flushed : GumArmWriter :=
  (gum_arm_writer_flush true
    (gum_arm_writer_put_ldr_reg_u32 true (gum_arm_writer_reset blank_writer .GUM_OS_LINUX 4096)
      0 0xDEADBEEF).2).2

/-- The same calls on a little-endian host. -/
def little_endian_flushed : GumArmWriter :=
  (gum_arm_writer_flush false
    (gum_arm_writer_put_ldr_reg_u32 false (gum_arm_writer_reset blank_writer .GUM_OS_LINUX 4096)
      0 0xDEADBEEF).2).2

/-- On a big-endian host: reset at 4096, then "load r0 with 0xDEADBEEF". -/
def big_endian_load_writer : GumArmWriter :=
  (Op.put_ldr_reg_u32 0 0xDEADBEEF).apply true
    (gum_arm_writer_reset blank_writer .GUM_OS_LINUX 4096)

/-! ## Memory lemmas -/

theorem host_byte_lt (be : Bool) (v j : Nat) : host_byte be v j < 256 := by
  unfold host_byte; split <;> exact Nat.mod_lt _ (by norm_num)

theorem bytes_of_lt (v : Nat) (h : v < 2 ^ 32) :
    ∃ b0 b1 b2 b3 : Nat, b0 < 256 ∧ b1 < 256 ∧ b2 < 256 ∧ b3 < 256 ∧
      v = b0 + 256 * b1 + 65536 * b2 + 16777216 * b3 :=
  ⟨v % 256, v / 256 % 256, v / 65536 % 256, v / 16777216 % 256,
    by omega, by omega, by omega, by omega, by omega⟩

theorem bswap32_bytes (b0 b1 b2 b3 : Nat) (h0 : b0 < 256) (h1 : b1 < 256) (h2 : b2 < 256)
    (h3 : b3 < 256) : bswap32 (b0 + 256 * b1 + 65536 * b2 + 16777216 * b3)
      = b3 + 256 * b2 + 65536 * b1 + 16777216 * b0 := by
  unfold bswap32; omega

theorem bswap32_bswap32 (v : Nat) (h : v < 2 ^ 32) : bswap32 (bswap32 v) = v := by
  obtain ⟨b0, b1, b2, b3, h0, h1, h2, h3, rfl⟩ := bytes_of_lt v h
  rw [bswap32_bytes b0 b1 b2 b3 h0 h1 h2 h3, bswap32_bytes b3 b2 b1 b0 h3 h2 h1 h0]

theorem bswap32_lt (v : Nat) : bswap32 v < 2 ^ 32 := by
  unfold bswap32; omega

theorem from_le_to_le (be : Bool) (v : Nat) (h : v < 2 ^ 32) :
    GUINT32_FROM_LE be (GUINT32_TO_LE be v) = v := by
  unfold GUINT32_FROM_LE GUINT32_TO_LE
  cases be <;> simp [bswap32_bswap32 v h]

theorem to_le_lt (be : Bool) (v : Nat) (h : v < 2 ^ 32) : GUINT32_TO_LE be v < 2 ^ 32 := by
  unfold GUINT32_TO_LE; cases be
  · simpa using h
  · simpa using bswap32_lt v

theorem store32_apply_in (be : Bool) (mem : Memory) (a v j : Nat) (hj : j < 4) :
    store32 be mem a v (a + j) = host_byte be v j := by
  unfold store32
  rw [if_pos (by omega)]
  congr 1; omega

theorem store32_apply_out (be : Bool) (mem : Memory) (a v x : Nat) (hx : x < a ∨ a + 4 ≤ x) :
    store32 be mem a v x = mem x := by
  unfold store32
  rw [if_neg (by omega)]

theorem load32_congr (be : Bool) (m1 m2 : Memory) (a : Nat)
    (h : ∀ j, j < 4 → m1 (a + j) = m2 (a + j)) : load32 be m1 a = load32 be m2 a := by
  unfold load32
  have h0 := h 0 (by omega); have h1 := h 1 (by omega)
  have h2 := h 2 (by omega); have h3 := h 3 (by omega)
  simp only [Nat.add_zero] at h0
  rw [h0, h1, h2, h3]

theorem load32_store32_same (be : Bool) (mem : Memory) (a v : Nat) (hv : v < 2 ^ 32) :
    load32 be (store32 be mem a v) a = v := by
  have h0 : store32 be mem a v a = host_byte be v 0 := by simp [store32]
  have h1 : store32 be mem a v (a + 1) = host_byte be v 1 := by simp [store32]
  have h2 : store32 be mem a v (a + 2) = host_byte be v 2 := by simp [store32]
  have h3 : store32 be mem a v (a + 3) = host_byte be v 3 := by simp [store32]
  unfold load32
  rw [h0, h1, h2, h3]
  unfold host_byte
  cases be <;> simp <;> omega

theorem load32_store32_other (be : Bool) (mem : Memory) (a v b : Nat)
    (h : b + 4 ≤ a ∨ a + 4 ≤ b) : load32 be (store32 be mem a v) b = load32 be mem b := by
  apply load32_congr
  intro j hj
  exact store32_apply_out be mem a v (b + j) (by omega)

/-! ## The pool scan and the pool contents -/

theorem find_slot_eq (be : Bool) (mem : Memory) (val : Nat) (l : List Nat) :
    ∀ a : Nat, (∀ j (hj : j < l.length), load32 be mem (a + 4 * j) = l[j]) →
      find_slot be mem val a l.length = a + 4 * l.indexOf val := by
  induction l with
  | nil => intro a _; simp [find_slot]
  | cons x xs ih =>
    intro a h
    have h0 : load32 be mem a = x := by simpa using h 0 (by simp)
    by_cases hx : x = val
    · simp [find_slot, h0, hx]
    · have hxs : ∀ j (hj : j < xs.length), load32 be mem (a + 4 + 4 * j) = xs[j] := by
        intro j hj
        have := h (j + 1) (by simp; omega)
        simpa [Nat.mul_add, Nat.add_assoc, Nat.add_comm 4] using this
      have e : List.indexOf val (x :: xs) = List.indexOf val xs + 1 := by
        simp [List.indexOf_cons, hx]
      rw [e]
      simp only [List.length_cons, find_slot, h0, if_neg hx]
      rw [ih (a + 4) hxs]
      omega

theorem pool_add_fold_eq (vs : List Nat) : ∀ p : List Nat,
    vs.foldl pool_add p = p ++ (first_occurrences vs).filter (fun w => decide (w ∉ p)) := by
  induction vs with
  | nil => intro p; simp [first_occurrences]
  | cons v vs ih =>
    intro p
    simp only [List.foldl_cons, first_occurrences]
    rw [ih]
    by_cases hv : v ∈ p
    · have e : pool_add p v = p := by simp [pool_add, hv]
      rw [e]
      simp only [List.filter_cons, hv, not_true_eq_false, decide_False,
        Bool.false_eq_true, if_false, List.filter_filter]
      congr 1
      apply List.filter_congr
      intro w _
      by_cases hw : w ∈ p
      · simp [hw]
      · have : w ≠ v := fun e => hw (e ▸ hv)
        simp [hw, this]
    · have e : pool_add p v = p ++ [v] := by simp [pool_add, hv]
      rw [e]
      simp only [List.filter_cons, hv, not_false_eq_true, decide_True,
        if_true, List.filter_filter, List.append_assoc, List.singleton_append]
      congr 2
      apply List.filter_congr
      intro w _
      by_cases hw : w ∈ p <;> by_cases hwv : w = v <;> simp [hw, hwv]

theorem pool_add_fold_nil (vs : List Nat) : vs.foldl pool_add [] = first_occurrences vs := by
  rw [pool_add_fold_eq]; simp

theorem mem_first_occurrences (vs : List Nat) (w : Nat) :
    w ∈ first_occurrences vs ↔ w ∈ vs := by
  induction vs with
  | nil => simp [first_occurrences]
  | cons v vs ih =>
    simp only [first_occurrences, List.mem_cons, List.mem_filter, ih]
    by_cases h : w = v <;> simp [h]

theorem nodup_first_occurrences (vs : List Nat) : (first_occurrences vs).Nodup := by
  induction vs with
  | nil => simp [first_occurrences]
  | cons v vs ih =>
    simp only [first_occurrences, List.nodup_cons, List.mem_filter]
    exact ⟨by simp, ih.filter _⟩

/-! ## One iteration of the flush loop -/

theorem patch_ldr_lt (insn0 : Nat) (d : Int) : patch_ldr insn0 d < 2 ^ 32 := by
  unfold patch_ldr
  have h1 : (insn0 ||| d.natAbs * 4) % 2 ^ 32 < 2 ^ 32 := Nat.mod_lt _ (by norm_num)
  split
  · exact Nat.or_lt_two_pow h1 (by decide)
  · exact h1

theorem pool_add_indexOf (pool : List Nat) (v : Nat) :
    (pool_add pool v).indexOf v = pool.indexOf v := by
  unfold pool_add
  split
  · rfl
  · rename_i h
    rw [List.indexOf_append_of_not_mem h, List.indexOf_eq_length.2 h]
    simp

theorem mem_pool_add (pool : List Nat) (v : Nat) : v ∈ pool_add pool v := by
  unfold pool_add; split <;> simp_all

theorem flush_ref_spec (be : Bool) (F : Nat) (st : Memory × Nat) (pool : List Nat)
    (r : GumArmLiteralRef) (hinv : PoolInv be F st pool) (hr : r.insn + 4 ≤ F)
    (hv : r.val < 2 ^ 32) :
    PoolInv be F (flush_ref be F st r) (pool_add pool r.val) ∧
    load32 be (flush_ref be F st r).1 r.insn
      = GUINT32_TO_LE be (patch_ldr (GUINT32_FROM_LE be (load32 be st.1 r.insn))
          ((((F + 4 * pool.indexOf r.val : Nat) : Int) - ((r.insn : Int) + 8)) / 4)) ∧
    (∀ x, (x < r.insn ∨ r.insn + 4 ≤ x) → (x < st.2 ∨ (flush_ref be F st r).2 ≤ x) →
      (flush_ref be F st r).1 x = st.1 x) := by
  have hlast := hinv.last
  have hn : (st.2 - F) / 4 = pool.length := by omega
  have hcur : find_slot be st.1 r.val F ((st.2 - F) / 4) = F + 4 * pool.indexOf r.val := by
    rw [hn]; exact find_slot_eq be st.1 r.val pool F hinv.words
  by_cases hmem : r.val ∈ pool
  · have hidx : pool.indexOf r.val < pool.length := List.indexOf_lt_length.2 hmem
    have hne : ¬ (F + 4 * pool.indexOf r.val = st.2) := by omega
    have hpa : pool_add pool r.val = pool := by simp [pool_add, hmem]
    have e : flush_ref be F st r = (store32 be st.1 r.insn (GUINT32_TO_LE be
        (patch_ldr (GUINT32_FROM_LE be (load32 be st.1 r.insn))
          ((((F + 4 * pool.indexOf r.val : Nat) : Int) - ((r.insn : Int) + 8)) / 4))), st.2) := by
      simp only [flush_ref, hcur, if_neg hne, patch_ldr]
    rw [e, hpa]
    refine ⟨⟨hlast, ?_, hinv.typed⟩, ?_, ?_⟩
    · intro j hj
      rw [load32_store32_other be st.1 _ _ _ (Or.inr (by omega))]
      exact hinv.words j hj
    · exact load32_store32_same be _ _ _ (to_le_lt be _ (patch_ldr_lt _ _))
    · intro x hx _
      show store32 be st.1 r.insn _ x = st.1 x
      exact store32_apply_out be _ _ _ x hx
  · have hidx : pool.indexOf r.val = pool.length := List.indexOf_eq_length.2 hmem
    have heq : F + 4 * pool.indexOf r.val = st.2 := by omega
    have hpa : pool_add pool r.val = pool ++ [r.val] := by simp [pool_add, hmem]
    have e : flush_ref be F st r = (store32 be (store32 be st.1 st.2 r.val) r.insn
        (GUINT32_TO_LE be (patch_ldr (GUINT32_FROM_LE be
          (load32 be (store32 be st.1 st.2 r.val) r.insn))
          ((((F + 4 * pool.indexOf r.val : Nat) : Int) - ((r.insn : Int) + 8)) / 4))),
        st.2 + 4) := by
      simp only [flush_ref, hcur, heq, if_true, patch_ldr]
    have hl : load32 be (store32 be st.1 st.2 r.val) r.insn = load32 be st.1 r.insn :=
      load32_store32_other be st.1 _ _ _ (Or.inl (by omega))
    rw [e, hpa, hl]
    refine ⟨⟨?_, ?_, ?_⟩, ?_, ?_⟩
    · simp; omega
    · intro j hj
      rw [load32_store32_other be _ _ _ _ (Or.inr (by omega))]
      by_cases hjl : j < pool.length
      · rw [load32_store32_other be _ _ _ _ (Or.inl (by omega)),
          List.getElem_append_left hjl]
        exact hinv.words j hjl
      · have hjeq : j = pool.length := by simp at hj; omega
        subst hjeq
        rw [← hlast, load32_store32_same be _ _ _ hv]
        simp
    · intro v hvm
      rcases List.mem_append.1 hvm with h | h
      · exact hinv.typed v h
      · simp at h; rw [h]; exact hv
    · exact load32_store32_same be _ _ _ (to_le_lt be _ (patch_ldr_lt _ _))
    · intro x hx hx2
      show store32 be (store32 be st.1 st.2 r.val) r.insn _ x = st.1 x
      rw [store32_apply_out be _ _ _ x hx]
      exact store32_apply_out be _ _ _ x (by simpa using hx2)

/-! ## The whole flush loop -/

theorem pool_fold_length_le (vs p : List Nat) : p.length ≤ (vs.foldl pool_add p).length := by
  rw [pool_add_fold_eq]; simp

theorem pool_fold_indexOf (vs p : List Nat) (v : Nat) (h : v ∈ p) :
    (vs.foldl pool_add p).indexOf v = p.indexOf v := by
  rw [pool_add_fold_eq]; exact List.indexOf_append_of_mem h

theorem flush_fold_spec (be : Bool) (F : Nat) (rs : List GumArmLiteralRef) :
    ∀ (st : Memory × Nat) (pool : List Nat), PoolInv be F st pool →
      (∀ r ∈ rs, r.insn + 4 ≤ F ∧ r.val < 2 ^ 32) →
      rs.Pairwise (fun a b => a.insn + 4 ≤ b.insn) →
      PoolInv be F (rs.foldl (flush_ref be F) st) ((rs.map (fun r => r.val)).foldl pool_add pool) ∧
      (∀ r ∈ rs, load32 be (rs.foldl (flush_ref be F) st).1 r.insn
        = GUINT32_TO_LE be (patch_ldr (GUINT32_FROM_LE be (load32 be st.1 r.insn))
            ((((F + 4 * ((rs.map (fun r => r.val)).foldl pool_add pool).indexOf r.val : Nat) : Int)
              - ((r.insn : Int) + 8)) / 4))) ∧
      (∀ x, (∀ r ∈ rs, x < r.insn ∨ r.insn + 4 ≤ x) →
        (x < st.2 ∨ (rs.foldl (flush_ref be F) st).2 ≤ x) →
        (rs.foldl (flush_ref be F) st).1 x = st.1 x) := by
  induction rs with
  | nil =>
    intro st pool hinv _ _
    exact ⟨hinv, by simp, by simp⟩
  | cons r rs ih =>
    intro st pool hinv hok hpw
    have hr := hok r (List.mem_cons_self _ _)
    obtain ⟨hinv1, hload1, hframe1⟩ := flush_ref_spec be F st pool r hinv hr.1 hr.2
    have hok' : ∀ r' ∈ rs, r'.insn + 4 ≤ F ∧ r'.val < 2 ^ 32 :=
      fun r' h => hok r' (List.mem_cons_of_mem _ h)
    have hpw' := (List.pairwise_cons.1 hpw).2
    have hlt := (List.pairwise_cons.1 hpw).1
    obtain ⟨hinvF, hloadF, hframeF⟩ := ih (flush_ref be F st r) (pool_add pool r.val) hinv1 hok' hpw'
    simp only [List.foldl_cons, List.map_cons]
    have hl0 := hinv.last
    have hl1 := hinv1.last
    have hlF := hinvF.last
    have hlen1 : pool.length ≤ (pool_add pool r.val).length := by
      unfold pool_add; split <;> simp
    have hlenF := pool_fold_length_le (rs.map (fun r => r.val)) (pool_add pool r.val)
    refine ⟨hinvF, ?_, ?_⟩
    · intro r' hr'
      rcases List.mem_cons.1 hr' with h | h
      · subst h
        rw [pool_fold_indexOf _ _ _ (mem_pool_add pool r'.val), pool_add_indexOf, ← hload1]
        apply load32_congr
        intro j hj
        apply hframeF
        · intro r2 hr2
          have := hlt r2 hr2
          left; omega
        · left; omega
      · rw [hloadF r' h]
        have : load32 be (flush_ref be F st r).1 r'.insn = load32 be st.1 r'.insn := by
          apply load32_congr
          intro j hj
          apply hframe1
          · have := hlt r' h
            right; omega
          · have := (hok' r' h).1
            left; omega
        rw [this]
    · intro x hx hx2
      rw [hframeF x (fun r' h => hx r' (List.mem_cons_of_mem _ h)) (by omega)]
      exact hframe1 x (hx r (List.mem_cons_self _ _)) (by omega)

/-! ## What `gum_arm_writer_flush` does -/

theorem flush_spec (be : Bool) (s : GumArmWriter) (hne : s.literal_refs ≠ [])
    (hok : ∀ r ∈ s.literal_refs, r.insn + 4 ≤ s.code ∧ r.val < 2 ^ 32)
    (hpw : s.literal_refs.Pairwise (fun a b => a.insn + 4 ≤ b.insn)) :
    (gum_arm_writer_flush be s).1 = true ∧
    (gum_arm_writer_flush be s).2.literal_refs = [] ∧
    (gum_arm_writer_flush be s).2.base = s.base ∧
    (gum_arm_writer_flush be s).2.target_os = s.target_os ∧
    (gum_arm_writer_flush be s).2.code
      = s.code + 4 * (first_occurrences (s.literal_refs.map (fun r => r.val))).length ∧
    (gum_arm_writer_flush be s).2.pc
      = (s.pc + 4 * (first_occurrences (s.literal_refs.map (fun r => r.val))).length) % 2 ^ 64 ∧
    (∀ j (hj : j < (first_occurrences (s.literal_refs.map (fun r => r.val))).length),
      load32 be (gum_arm_writer_flush be s).2.mem (s.code + 4 * j)
        = (first_occurrences (s.literal_refs.map (fun r => r.val)))[j]) ∧
    (∀ r ∈ s.literal_refs, load32 be (gum_arm_writer_flush be s).2.mem r.insn
      = GUINT32_TO_LE be (patch_ldr (GUINT32_FROM_LE be (load32 be s.mem r.insn))
          ((((s.code + 4 * (first_occurrences (s.literal_refs.map (fun r => r.val))).indexOf r.val
            : Nat) : Int) - ((r.insn : Int) + 8)) / 4))) ∧
    (∀ x, (∀ r ∈ s.literal_refs, x < r.insn ∨ r.insn + 4 ≤ x) →
      (x < s.code ∨ (gum_arm_writer_flush be s).2.code ≤ x) →
      (gum_arm_writer_flush be s).2.mem x = s.mem x) := by
  have hpos : s.literal_refs.length > 0 := List.length_pos.2 hne
  have hinv0 : PoolInv be s.code (s.mem, s.code) [] := ⟨by simp, by simp, by simp⟩
  obtain ⟨hinv, hload, hframe⟩ := flush_fold_spec be s.code s.literal_refs (s.mem, s.code) []
    hinv0 hok hpw
  rw [pool_add_fold_nil] at hinv hload
  have hlast := hinv.last
  have e : gum_arm_writer_flush be s = (true, { s with
      literal_refs := []
      code := (s.literal_refs.foldl (flush_ref be s.code) (s.mem, s.code)).2
      pc := (s.pc + ((s.literal_refs.foldl (flush_ref be s.code) (s.mem, s.code)).2 - s.code))
        % 2 ^ 64
      mem := (s.literal_refs.foldl (flush_ref be s.code) (s.mem, s.code)).1 }) := by
    simp only [gum_arm_writer_flush, if_pos hpos]
  rw [e]
  refine ⟨rfl, rfl, rfl, rfl, hlast, ?_, hinv.words, hload, hframe⟩
  show (s.pc + ((s.literal_refs.foldl (flush_ref be s.code) (s.mem, s.code)).2 - s.code))
        % 2 ^ 64 = _
  rw [hlast]; congr 2; omega

theorem flush_empty (be : Bool) (s : GumArmWriter) (h : s.literal_refs = []) :
    gum_arm_writer_flush be s = (true, s) := by
  simp [gum_arm_writer_flush, h]

/-! ## The invariant holds in every reachable state -/

theorem gum_memcpy_apply_out (mem : Memory) (dst : Nat) (data : List Nat) (x : Nat)
    (hx : x < dst ∨ dst + data.length ≤ x) : gum_memcpy mem dst data x = mem x := by
  unfold gum_memcpy
  rw [if_neg (by omega)]

theorem ldr_word_lt (reg : arm_reg) : 0xe51f0000 ||| (reg.val <<< 12) < 2 ^ 32 := by
  revert reg; decide

theorem inv_frame (be : Bool) (s s' : GumArmWriter) (h : Inv be s) (hb : s'.base = s.base)
    (hr : s'.literal_refs = s.literal_refs) (hc : s.code ≤ s'.code)
    (hm : ∀ x, x < s.code → s'.mem x = s.mem x) : Inv be s' := by
  refine ⟨by have := h.base_le; omega, by rw [hr]; exact h.count, by rw [hr]; exact h.sorted, ?_⟩
  intro r hrm
  rw [hr] at hrm
  obtain ⟨h1, h2, h3, reg, h4⟩ := h.refs r hrm
  refine ⟨by omega, by omega, h3, reg, ?_⟩
  rw [← h4]
  apply load32_congr
  intro j hj
  exact hm _ (by omega)

theorem inv_put_instruction (be : Bool) (s : GumArmWriter) (insn : Nat) (h : Inv be s) :
    Inv be (gum_arm_writer_put_instruction be s insn) := by
  refine inv_frame be s (gum_arm_writer_put_instruction be s insn) h rfl rfl ?_ ?_
  · show s.code ≤ s.code + 4
    omega
  · intro x hx
    exact store32_apply_out be _ _ _ x (Or.inl hx)

theorem inv_put_ldr_reg_u32 (be : Bool) (s : GumArmWriter) (reg : arm_reg) (val : Nat)
    (hv : val < 2 ^ 32) (h : Inv be s) : Inv be (gum_arm_writer_put_ldr_reg_u32 be s reg val).2 := by
  by_cases hfull : s.literal_refs.length = GUM_MAX_LITERAL_REF_COUNT
  · have e : (gum_arm_writer_put_ldr_reg_u32 be s reg val).2 = s := by
      simp [gum_arm_writer_put_ldr_reg_u32, gum_arm_writer_add_literal_reference_here, hfull]
    rw [e]; exact h
  · have e : (gum_arm_writer_put_ldr_reg_u32 be s reg val).2 =
        { s with
          literal_refs := s.literal_refs ++ [⟨s.code, val⟩]
          mem := store32 be s.mem s.code (GUINT32_TO_LE be (0xe51f0000 ||| (reg.val <<< 12)))
          code := s.code + 4
          pc := (s.pc + 4) % 2 ^ 64 } := by
      simp [gum_arm_writer_put_ldr_reg_u32, gum_arm_writer_add_literal_reference_here, hfull,
        gum_arm_writer_put_instruction, gum_arm_reg_describe]
    rw [e]
    have hcount := h.count
    refine ⟨?_, ?_, ?_, ?_⟩
    · show s.base ≤ s.code + 4
      have := h.base_le; omega
    · show (s.literal_refs ++ [(⟨s.code, val⟩ : GumArmLiteralRef)]).length ≤ GUM_MAX_LITERAL_REF_COUNT
      simp; omega
    · show (s.literal_refs ++ [(⟨s.code, val⟩ : GumArmLiteralRef)]).Pairwise _
      rw [List.pairwise_append]
      refine ⟨h.sorted, by simp, ?_⟩
      intro a ha b hb
      simp at hb; subst hb
      exact (h.refs a ha).2.1
    · intro r hrm
      change r ∈ s.literal_refs ++ [(⟨s.code, val⟩ : GumArmLiteralRef)] at hrm
      show s.base ≤ r.insn ∧ r.insn + 4 ≤ s.code + 4 ∧ r.val < 2 ^ 32 ∧
        ∃ reg' : arm_reg, load32 be (store32 be s.mem s.code
          (GUINT32_TO_LE be (0xe51f0000 ||| (reg.val <<< 12)))) r.insn
            = GUINT32_TO_LE be (0xe51f0000 ||| (reg'.val <<< 12))
      rcases List.mem_append.1 hrm with hin | hin
      · obtain ⟨h1, h2, h3, reg', h4⟩ := h.refs r hin
        refine ⟨h1, by omega, h3, reg', ?_⟩
        rw [load32_store32_other be _ _ _ _ (Or.inl h2)]
        exact h4
      · simp at hin; subst hin
        refine ⟨h.base_le, by simp, hv, reg, ?_⟩
        exact load32_store32_same be _ _ _ (to_le_lt be _ (ldr_word_lt reg))

theorem inv_flush (be : Bool) (s : GumArmWriter) (h : Inv be s) :
    Inv be (gum_arm_writer_flush be s).2 := by
  by_cases hne : s.literal_refs = []
  · rw [flush_empty be s hne]; exact h
  · obtain ⟨-, h2, h3, -, h5, -⟩ := flush_spec be s hne
      (fun r hr => ⟨(h.refs r hr).2.1, (h.refs r hr).2.2.1⟩) h.sorted
    refine ⟨?_, ?_, ?_, ?_⟩
    · rw [h3, h5]; have := h.base_le; omega
    · rw [h2]; simp
    · rw [h2]; simp
    · rw [h2]; simp

theorem inv_put_b_imm (be : Bool) (s : GumArmWriter) (target : Nat) (h : Inv be s) :
    Inv be (gum_arm_writer_put_b_imm be s target).2 := by
  unfold gum_arm_writer_put_b_imm
  simp only
  split
  · exact h
  · exact inv_put_instruction be s _ h

theorem inv_put_bytes (be : Bool) (s : GumArmWriter) (data : List Nat) (h : Inv be s) :
    Inv be (gum_arm_writer_put_bytes s data).2 := by
  unfold gum_arm_writer_put_bytes
  simp only
  split
  · exact h
  · refine inv_frame be s
      { s with
        mem := gum_memcpy s.mem s.code data
        code := s.code + 4 * (data.length / 4)
        pc := (s.pc + data.length) % 2 ^ 64 } h rfl rfl ?_ ?_
    · show s.code ≤ s.code + 4 * (data.length / 4)
      omega
    · intro x hx
      exact gum_memcpy_apply_out _ _ _ x (Or.inl hx)

theorem inv_apply (be : Bool) (s : GumArmWriter) (op : Op) (ht : op.typed) (h : Inv be s) :
    Inv be (op.apply be s) := by
  cases op with
  | reset native_os code_address =>
    exact ⟨Nat.le_refl _, by simp [Op.apply, gum_arm_writer_reset],
      by simp [Op.apply, gum_arm_writer_reset], by simp [Op.apply, gum_arm_writer_reset]⟩
  | set_target_os os =>
    exact inv_frame be s (gum_arm_writer_set_target_os s os) h rfl rfl (Nat.le_refl _)
      (fun _ _ => rfl)
  | skip n_bytes =>
    exact inv_frame be s (gum_arm_writer_skip s n_bytes) h rfl rfl (Nat.le_add_right _ _)
      (fun _ _ => rfl)
  | flush => exact inv_flush be s h
  | put_b_imm target => exact inv_put_b_imm be s target h
  | put_ldr_reg_address reg address =>
    exact inv_put_ldr_reg_u32 be s reg _ (Nat.mod_lt _ (by norm_num)) h
  | put_ldr_reg_u32 reg val => exact inv_put_ldr_reg_u32 be s reg val ht h
  | put_add_reg_reg_imm d r i => exact inv_put_instruction be s _ h
  | put_ldr_reg_reg_imm d r i => exact inv_put_instruction be s _ h
  | put_nop => exact inv_put_instruction be s _ h
  | put_breakpoint => exact inv_put_instruction be s _ h
  | put_instruction insn => exact inv_put_instruction be s _ h
  | put_bytes data => exact inv_put_bytes be s data h

theorem reachable_inv (be : Bool) (s : GumArmWriter) (h : Reachable be s) : Inv be s := by
  induction h with
  | init writer native_os code_address =>
    exact ⟨Nat.le_refl _, by simp [gum_arm_writer_reset],
      by simp [gum_arm_writer_reset], by simp [gum_arm_writer_reset]⟩
  | step s op _ ht ih => exact inv_apply be s op ht ih

/-! ## The bits of a patched load word -/

theorem or_bit23 (x : Nat) (h : x % 2 ^ 24 < 2 ^ 23) : x ||| (1 <<< 23) = x + 2 ^ 23 := by
  have hx : x = 2 ^ 24 * (x / 2 ^ 24) + x % 2 ^ 24 := (Nat.div_add_mod x (2 ^ 24)).symm
  have h1 : 2 ^ 24 * (x / 2 ^ 24) + x % 2 ^ 24 = 2 ^ 24 * (x / 2 ^ 24) ||| x % 2 ^ 24 :=
    Nat.mul_add_lt_is_or (Nat.mod_lt _ (by norm_num)) _
  have h2 : 2 ^ 23 * 1 + x % 2 ^ 24 = 2 ^ 23 * 1 ||| x % 2 ^ 24 := Nat.mul_add_lt_is_or h _
  have h3 : 2 ^ 24 * (x / 2 ^ 24) + (2 ^ 23 * 1 + x % 2 ^ 24)
      = 2 ^ 24 * (x / 2 ^ 24) ||| (2 ^ 23 * 1 + x % 2 ^ 24) :=
    Nat.mul_add_lt_is_or (by omega) _
  have e23 : (1 <<< 23 : Nat) = 2 ^ 23 * 1 := by decide
  calc x ||| (1 <<< 23) = (2 ^ 24 * (x / 2 ^ 24) ||| x % 2 ^ 24) ||| (2 ^ 23 * 1) := by
        rw [← h1, ← hx, e23]
    _ = 2 ^ 24 * (x / 2 ^ 24) ||| (2 ^ 23 * 1 ||| x % 2 ^ 24) := by
        rw [Nat.or_assoc, Nat.or_comm (x % 2 ^ 24)]
    _ = 2 ^ 24 * (x / 2 ^ 24) + (2 ^ 23 * 1 + x % 2 ^ 24) := by rw [← h2, ← h3]
    _ = x + 2 ^ 23 := by omega

theorem ldr_word_eq (reg : arm_reg) :
    0xe51f0000 ||| (reg.val <<< 12) = 2 ^ 12 * (0xe51f0 + reg.val) := by
  revert reg; decide

theorem patch_ldr_arith (reg : arm_reg) (d : Int) (hd : d.natAbs * 4 < 4096) :
    patch_ldr (0xe51f0000 ||| (reg.val <<< 12)) d
      = 0xe51f0000 + reg.val * 4096 + d.natAbs * 4 + (if d ≥ 0 then 2 ^ 23 else 0) := by
  have hreg := reg.isLt
  unfold patch_ldr
  simp only
  rw [ldr_word_eq, ← Nat.mul_add_lt_is_or (by omega : d.natAbs * 4 < 2 ^ 12)]
  rw [Nat.mod_eq_of_lt (by omega)]
  split
  · rw [or_bit23 _ (by omega)]; omega
  · omega

theorem ldr_literal_address_patch (a : Nat) (reg : arm_reg) (d : Int)
    (hd : d.natAbs * 4 < 4096) :
    ldr_literal_address a (patch_ldr (0xe51f0000 ||| (reg.val <<< 12)) d) = a + 8 + 4 * d := by
  have hreg := reg.isLt
  rw [patch_ldr_arith reg d hd]
  unfold ldr_literal_address
  rw [Nat.testBit_to_div_mod]
  by_cases h : d ≥ 0
  · simp only [if_pos h]
    rw [if_pos (by simp; omega)]
    omega
  · simp only [if_neg h]
    rw [if_neg (by simp; omega)]
    omega

theorem patch_ldr_testBit (w : Nat) (hw : w < 2 ^ 32) (d : Int) (hd : d.natAbs * 4 < 4096)
    (b : Nat) (hb : 12 ≤ b) (hb23 : b ≠ 23) : (patch_ldr w d).testBit b = w.testBit b := by
  have hm : (d.natAbs * 4).testBit b = false :=
    Nat.testBit_lt_two_pow (lt_of_lt_of_le (by omega : d.natAbs * 4 < 2 ^ 12)
      (Nat.pow_le_pow_right (by norm_num) hb))
  have h32 : (decide (b < 32) && w.testBit b) = w.testBit b := by
    by_cases hlt : b < 32
    · simp [hlt]
    · have : w.testBit b = false :=
        Nat.testBit_lt_two_pow (lt_of_lt_of_le hw (Nat.pow_le_pow_right (by norm_num) (by omega)))
      simp [this]
  unfold patch_ldr
  simp only
  split
  · have e23 : (1 <<< 23 : Nat) = 2 ^ 23 := by decide
    have h23 : (2 ^ 23 : Nat).testBit b = false := by
      rw [Nat.testBit_two_pow]; simp; omega
    rw [Nat.testBit_or, Nat.testBit_mod_two_pow, Nat.testBit_or, hm, e23, h23]
    simp [h32]
  · rw [Nat.testBit_mod_two_pow, Nat.testBit_or, hm]
    simp [h32]

/-! ## Sequences of constant loads -/

theorem length_first_occurrences_le (vs : List Nat) :
    (first_occurrences vs).length ≤ vs.length := by
  induction vs with
  | nil => simp [first_occurrences]
  | cons v vs ih =>
    simp only [first_occurrences, List.length_cons]
    have := List.length_filter_le (fun w => decide (w ≠ v)) (first_occurrences vs)
    omega

theorem mem_seq_refs (cs : List (arm_reg × Nat)) : ∀ (a : Nat) (r : GumArmLiteralRef),
    r ∈ seq_refs a cs ↔ ∃ i, ∃ hi : i < cs.length, r = ⟨a + 4 * i, cs[i].2⟩ := by
  induction cs with
  | nil => intro a r; simp [seq_refs]
  | cons c cs ih =>
    intro a r
    simp only [seq_refs, List.mem_cons, ih, List.length_cons]
    constructor
    · rintro (h | ⟨i, hi, h⟩)
      · exact ⟨0, by omega, by simpa using h⟩
      · refine ⟨i + 1, by omega, ?_⟩
        rw [h]; simp; omega
    · rintro ⟨i, hi, h⟩
      cases i with
      | zero => left; simpa using h
      | succ i =>
        right
        refine ⟨i, by omega, ?_⟩
        rw [h]; simp; omega

theorem seq_refs_map_val (cs : List (arm_reg × Nat)) : ∀ a : Nat,
    (seq_refs a cs).map (fun r => r.val) = cs.map (fun c => c.2) := by
  induction cs with
  | nil => intro a; simp [seq_refs]
  | cons c cs ih => intro a; simp [seq_refs, ih]

theorem pairwise_seq_refs (cs : List (arm_reg × Nat)) : ∀ a : Nat,
    (seq_refs a cs).Pairwise (fun x y => x.insn + 4 ≤ y.insn) := by
  induction cs with
  | nil => intro a; simp [seq_refs]
  | cons c cs ih =>
    intro a
    simp only [seq_refs, List.pairwise_cons]
    refine ⟨?_, ih (a + 4)⟩
    intro r hr
    obtain ⟨i, hi, h⟩ := (mem_seq_refs cs (a + 4) r).1 hr
    rw [h]; simp

theorem put_ldr_reg_u32_ok (be : Bool) (s : GumArmWriter) (reg : arm_reg) (val : Nat)
    (h : s.literal_refs.length ≠ GUM_MAX_LITERAL_REF_COUNT) :
    gum_arm_writer_put_ldr_reg_u32 be s reg val = (true,
      { s with
        literal_refs := s.literal_refs ++ [⟨s.code, val⟩]
        mem := store32 be s.mem s.code (GUINT32_TO_LE be (0xe51f0000 ||| (reg.val <<< 12)))
        code := s.code + 4
        pc := (s.pc + 4) % 2 ^ 64 }) := by
  simp [gum_arm_writer_put_ldr_reg_u32, gum_arm_writer_add_literal_reference_here, h,
    gum_arm_writer_put_instruction, gum_arm_reg_describe]

theorem put_ldr_reg_u32_full (be : Bool) (s : GumArmWriter) (reg : arm_reg) (val : Nat)
    (h : s.literal_refs.length = GUM_MAX_LITERAL_REF_COUNT) :
    gum_arm_writer_put_ldr_reg_u32 be s reg val = (false, s) := by
  simp [gum_arm_writer_put_ldr_reg_u32, gum_arm_writer_add_literal_reference_here, h]

theorem put_ldr_reg_u32_seq_spec (be : Bool) (calls : List (arm_reg × Nat)) :
    ∀ s : GumArmWriter, s.literal_refs.length + calls.length ≤ GUM_MAX_LITERAL_REF_COUNT →
      (put_ldr_reg_u32_seq be s calls).1 = true ∧
      (put_ldr_reg_u32_seq be s calls).2.literal_refs = s.literal_refs ++ seq_refs s.code calls ∧
      (put_ldr_reg_u32_seq be s calls).2.code = s.code + 4 * calls.length ∧
      (put_ldr_reg_u32_seq be s calls).2.base = s.base ∧
      (∀ x, x < s.code ∨ s.code + 4 * calls.length ≤ x →
        (put_ldr_reg_u32_seq be s calls).2.mem x = s.mem x) ∧
      (∀ i (hi : i < calls.length),
        load32 be (put_ldr_reg_u32_seq be s calls).2.mem (s.code + 4 * i)
          = GUINT32_TO_LE be (0xe51f0000 ||| (calls[i].1.val <<< 12))) := by
  induction calls with
  | nil =>
    intro s _
    simp [put_ldr_reg_u32_seq, seq_refs]
  | cons c cs ih =>
    intro s hlen
    simp only [List.length_cons] at hlen
    have hnf : s.literal_refs.length ≠ GUM_MAX_LITERAL_REF_COUNT := by omega
    have e := put_ldr_reg_u32_ok be s c.1 c.2 hnf
    simp only [put_ldr_reg_u32_seq, e, Bool.true_and]
    obtain ⟨h1, h2, h3, h5, h6, h7⟩ := ih
      { s with
        literal_refs := s.literal_refs ++ [⟨s.code, c.2⟩]
        mem := store32 be s.mem s.code (GUINT32_TO_LE be (0xe51f0000 ||| (c.1.val <<< 12)))
        code := s.code + 4
        pc := (s.pc + 4) % 2 ^ 64 } (by simp; omega)
    simp only at h2 h3 h5 h6 h7
    refine ⟨h1, ?_, ?_, h5, ?_, ?_⟩
    · rw [h2]; simp [seq_refs]
    · rw [h3]; simp; omega
    · intro x hx
      rw [h6 x (by simp at hx; omega)]
      exact store32_apply_out be _ _ _ x (by simp at hx; omega)
    · intro i hi
      cases i with
      | zero =>
        simp only [Nat.mul_zero, Nat.add_zero, List.getElem_cons_zero]
        rw [load32_congr be _ _ s.code (fun j hj => h6 _ (Or.inl (by omega)))]
        exact load32_store32_same be s.mem s.code _ (to_le_lt be _ (ldr_word_lt c.1))
      | succ i =>
        have := h7 i (by simpa using hi)
        simp only [List.getElem_cons_succ]
        rw [← this]
        congr 1; omega

/-! ## Concrete reachable states and constant batches -/

theorem first_occurrences_const (vs : List Nat) (v : Nat) (hne : vs ≠ [])
    (h : ∀ x ∈ vs, x = v) : first_occurrences vs = [v] := by
  cases vs with
  | nil => exact absurd rfl hne
  | cons x xs =>
    have hx : x = v := h x (List.mem_cons_self _ _)
    subst hx
    simp only [first_occurrences, List.cons.injEq, true_and, List.filter_eq_nil_iff]
    intro a ha
    have : a = x := h a (List.mem_cons_of_mem _ ((mem_first_occurrences xs a).1 ha))
    simp [this]

theorem one_load_writer_reachable : Reachable false one_load_writer :=
  Reachable.step _ (Op.put_ldr_reg_u32 0 1) (Reachable.init blank_writer .GUM_OS_LINUX 4096)
    (by simp [Op.typed])

theorem far_pool_writer_reachable : Reachable false far_pool_writer :=
  Reachable.step _ (Op.skip 4100) one_load_writer_reachable (by simp [Op.typed])

/-! ## The range check of the branch builder -/

theorem put_b_imm_result (be : Bool) (s : GumArmWriter) (target : Nat) :
    (gum_arm_writer_put_b_imm be s target).1 = GUM_IS_WITHIN_INT26_RANGE
      (to_gint32 (((target : Int) - (((s.pc + 8) % 2 ^ 64 : Nat) : Int)) % 18446744073709551616)) := by
  unfold gum_arm_writer_put_b_imm
  simp only
  split <;> simp_all

theorem put_b_imm_distance (pc target : Nat) :
    to_gint32 (((target : Int) - (((pc + 8) % 2 ^ 64 : Nat) : Int)) % 18446744073709551616)
      = ((target : Int) - ((pc : Int) + 8) + 2147483648) % 4294967296 - 2147483648 := by
  unfold to_gint32
  omega

theorem put_b_imm_ok (be : Bool) (s : GumArmWriter) (target : Nat)
    (h : (gum_arm_writer_put_b_imm be s target).1 = true) :
    gum_arm_writer_put_b_imm be s target = (true, gum_arm_writer_put_instruction be s
      (0xea000000 ||| ((Int.tdiv (((target : Int) - ((s.pc : Int) + 8) + 2147483648)
        % 4294967296 - 2147483648) 4 % 4294967296).toNat &&& GUM_INT24_MASK))) := by
  rw [put_b_imm_result] at h
  rw [← put_b_imm_distance]
  unfold gum_arm_writer_put_b_imm
  simp only [h, Bool.not_true, Bool.false_eq_true, if_false]

theorem put_b_imm_fail (be : Bool) (s : GumArmWriter) (target : Nat)
    (h : (gum_arm_writer_put_b_imm be s target).1 = false) :
    gum_arm_writer_put_b_imm be s target = (false, s) := by
  rw [put_b_imm_result] at h
  unfold gum_arm_writer_put_b_imm
  simp only [h, Bool.not_false, if_true]

theorem put_b_imm_true_iff (be : Bool) (s : GumArmWriter) (target : Nat) :
    (gum_arm_writer_put_b_imm be s target).1 = true ↔
      (-33554432 ≤ ((target : Int) - ((s.pc : Int) + 8) + 2147483648) % 4294967296 - 2147483648 ∧
       ((target : Int) - ((s.pc : Int) + 8) + 2147483648) % 4294967296 - 2147483648 ≤ 33554431) := by
  rw [put_b_imm_result, put_b_imm_distance]
  unfold GUM_IS_WITHIN_INT26_RANGE
  simp

theorem b_word_eq (x : Nat) : 0xea000000 ||| (x &&& GUM_INT24_MASK) = 0xea000000 + x % 2 ^ 24 := by
  have e : GUM_INT24_MASK = 2 ^ 24 - 1 := by decide
  rw [e, Nat.and_pow_two_sub_one_eq_mod]
  have := Nat.mul_add_lt_is_or (Nat.mod_lt x (by norm_num : 0 < 2 ^ 24)) 0xea
  rw [← this]

theorem tdiv_four_of_mod (d : Int) (h : d % 4 = 0) : Int.tdiv d 4 = d / 4 :=
  Int.tdiv_eq_ediv_of_dvd (Int.dvd_of_emod_eq_zero h)

/-! ## The states of the end-to-end scenario -/

theorem first_load_call (be : Bool) (writer : GumArmWriter) (os : GumOS) (A : Nat)
    (reg1 : arm_reg) (val1 : Nat) :
    gum_arm_writer_put_ldr_reg_u32 be (gum_arm_writer_reset writer os A) reg1 val1
      = (true,
          { target_os := os, base := A, code := A + 4, pc := (A % 2 ^ 64 + 4) % 2 ^ 64,
            literal_refs := [⟨A, val1⟩],
            mem := store32 be writer.mem A
              (GUINT32_TO_LE be (0xe51f0000 ||| (reg1.val <<< 12))) }) := by
  rw [put_ldr_reg_u32_ok be _ _ _ (by simp [gum_arm_writer_reset, GUM_MAX_LITERAL_REF_COUNT])]
  simp [gum_arm_writer_reset]

theorem second_load_call (be : Bool) (writer : GumArmWriter) (os : GumOS) (A : Nat)
    (reg1 : arm_reg) (val1 : Nat) (reg2 : arm_reg) (val2 : Nat) :
    gum_arm_writer_put_ldr_reg_u32 be
        (gum_arm_writer_put_ldr_reg_u32 be (gum_arm_writer_reset writer os A) reg1 val1).2
        reg2 val2
      = (true,
          { target_os := os, base := A, code := A + 8,
            pc := ((A % 2 ^ 64 + 4) % 2 ^ 64 + 4) % 2 ^ 64,
            literal_refs := [⟨A, val1⟩, ⟨A + 4, val2⟩],
            mem := store32 be (store32 be writer.mem A
                (GUINT32_TO_LE be (0xe51f0000 ||| (reg1.val <<< 12)))) (A + 4)
              (GUINT32_TO_LE be (0xe51f0000 ||| (reg2.val <<< 12))) }) := by
  rw [first_load_call]
  rw [put_ldr_reg_u32_ok be _ _ _ (by simp [GUM_MAX_LITERAL_REF_COUNT])]
  simp [Nat.add_assoc]

theorem two_loads_eq (be : Bool) (writer : GumArmWriter) (os : GumOS) (A : Nat)
    (reg1 : arm_reg) (val1 : Nat) (reg2 : arm_reg) (val2 : Nat) :
    two_loads be writer os A reg1 val1 reg2 val2
      = { target_os := os, base := A, code := A + 8,
          pc := ((A % 2 ^ 64 + 4) % 2 ^ 64 + 4) % 2 ^ 64,
          literal_refs := [⟨A, val1⟩, ⟨A + 4, val2⟩],
          mem := store32 be (store32 be writer.mem A
              (GUINT32_TO_LE be (0xe51f0000 ||| (reg1.val <<< 12)))) (A + 4)
            (GUINT32_TO_LE be (0xe51f0000 ||| (reg2.val <<< 12))) } := by
  unfold two_loads
  rw [second_load_call]

theorem two_loads_branch_call (be : Bool) (writer : GumArmWriter) (os : GumOS) (A : Nat)
    (reg1 : arm_reg) (val1 : Nat) (reg2 : arm_reg) (val2 : Nat) :
    gum_arm_writer_put_b_imm be (two_loads be writer os A reg1 val1 reg2 val2) A
      = (true,
          { target_os := os, base := A, code := A + 12,
            pc := (((A % 2 ^ 64 + 4) % 2 ^ 64 + 4) % 2 ^ 64 + 4) % 2 ^ 64,
            literal_refs := [⟨A, val1⟩, ⟨A + 4, val2⟩],
            mem := store32 be (store32 be (store32 be writer.mem A
                (GUINT32_TO_LE be (0xe51f0000 ||| (reg1.val <<< 12)))) (A + 4)
              (GUINT32_TO_LE be (0xe51f0000 ||| (reg2.val <<< 12)))) (A + 8)
              (GUINT32_TO_LE be 0xeafffffc) }) := by
  have hd : ((A : Int) - (((((A % 2 ^ 64 + 4) % 2 ^ 64 + 4) % 2 ^ 64 : Nat) : Int) + 8)
      + 2147483648) % 4294967296 - 2147483648 = -16 := by omega
  have hok : (gum_arm_writer_put_b_imm be (two_loads be writer os A reg1 val1 reg2 val2) A).1
      = true := by
    rw [put_b_imm_true_iff, two_loads_eq]
    simp only
    rw [hd]; decide
  rw [put_b_imm_ok be _ _ hok, two_loads_eq]
  simp only
  rw [hd]
  have hw : 0xea000000 ||| ((Int.tdiv (-16) 4 % 4294967296).toNat &&& GUM_INT24_MASK)
      = 0xeafffffc := by decide
  rw [hw]
  simp [gum_arm_writer_put_instruction, Nat.add_assoc]

theorem two_loads_branch_word (be : Bool) (writer : GumArmWriter) (os : GumOS) (A : Nat)
    (reg1 : arm_reg) (val1 : Nat) (reg2 : arm_reg) (val2 : Nat) :
    GUINT32_FROM_LE be (load32 be
      (gum_arm_writer_put_b_imm be (two_loads be writer os A reg1 val1 reg2 val2) A).2.mem
      (A + 8)) = 0xeafffffc := by
  rw [two_loads_branch_call]
  simp only
  rw [load32_store32_same be _ _ _ (to_le_lt be _ (by norm_num)),
    from_le_to_le be _ (by norm_num)]

theorem scenario_branch_eq (be : Bool) (writer : GumArmWriter) (os : GumOS) (A : Nat) :
    scenario_branch be writer os A
      = { target_os := os, base := A, code := A + 12,
          pc := (((A % 2 ^ 64 + 4) % 2 ^ 64 + 4) % 2 ^ 64 + 4) % 2 ^ 64,
          literal_refs := [⟨A, 0xDEADBEEF⟩, ⟨A + 4, 0xDEADBEEF⟩],
          mem := store32 be (store32 be (store32 be writer.mem A (GUINT32_TO_LE be 0xe51f0000))
            (A + 4) (GUINT32_TO_LE be 0xe51f1000)) (A + 8) (GUINT32_TO_LE be 0xeafffffc) } := by
  unfold scenario_branch scenario_loads
  rw [two_loads_branch_call]
  rfl

theorem scenario_branch_words (be : Bool) (writer : GumArmWriter) (os : GumOS) (A : Nat) :
    load32 be (scenario_branch be writer os A).mem A = GUINT32_TO_LE be 0xe51f0000 ∧
    load32 be (scenario_branch be writer os A).mem (A + 4) = GUINT32_TO_LE be 0xe51f1000 ∧
    load32 be (scenario_branch be writer os A).mem (A + 8) = GUINT32_TO_LE be 0xeafffffc := by
  rw [scenario_branch_eq]
  simp only
  refine ⟨?_, ?_, ?_⟩
  · rw [load32_store32_other be _ _ _ _ (Or.inl (by omega)),
      load32_store32_other be _ _ _ _ (Or.inl (by omega)),
      load32_store32_same be _ _ _ (to_le_lt be _ (by norm_num))]
  · rw [load32_store32_other be _ _ _ _ (Or.inl (by omega)),
      load32_store32_same be _ _ _ (to_le_lt be _ (by norm_num))]
  · rw [load32_store32_same be _ _ _ (to_le_lt be _ (by norm_num))]

theorem scenario_flush_spec (be : Bool) (writer : GumArmWriter) (os : GumOS) (A : Nat) :
    (gum_arm_writer_flush be (scenario_branch be writer os A)).1 = true ∧
    (scenario_flushed be writer os A).code = A + 16 ∧
    load32 be (scenario_flushed be writer os A).mem (A + 12) = 0xDEADBEEF ∧
    GUINT32_FROM_LE be (load32 be (scenario_flushed be writer os A).mem A)
      = 0xe59f0004 ∧
    GUINT32_FROM_LE be (load32 be (scenario_flushed be writer os A).mem (A + 4))
      = 0xe59f1000 ∧
    GUINT32_FROM_LE be (load32 be (scenario_flushed be writer os A).mem (A + 8))
      = 0xeafffffc := by
  have hrefs : (scenario_branch be writer os A).literal_refs
      = [⟨A, 0xDEADBEEF⟩, ⟨A + 4, 0xDEADBEEF⟩] := by rw [scenario_branch_eq]
  have hcode : (scenario_branch be writer os A).code = A + 12 := by rw [scenario_branch_eq]
  obtain ⟨w0, w1, w2⟩ := scenario_branch_words be writer os A
  have hpool : first_occurrences ((scenario_branch be writer os A).literal_refs.map
      (fun r => r.val)) = [0xDEADBEEF] := by
    rw [hrefs]
    simp only [List.map_cons, List.map_nil]
    decide
  obtain ⟨f1, -, -, -, f5, -, f7, f8, f9⟩ := flush_spec be (scenario_branch be writer os A)
    (by rw [hrefs]; simp)
    (by rw [hrefs, hcode]; intro r hr; simp at hr; rcases hr with h | h <;> subst h <;> simp)
    (by rw [hrefs]; simp)
  rw [hpool, hcode] at f5 f7 f8
  rw [hrefs] at f8 f9
  rw [hcode] at f9
  have h0 := f8 ⟨A, 0xDEADBEEF⟩ (by simp)
  have h1 := f8 ⟨A + 4, 0xDEADBEEF⟩ (by simp)
  simp only at h0 h1
  rw [w0, from_le_to_le be _ (by norm_num)] at h0
  rw [w1, from_le_to_le be _ (by norm_num)] at h1
  have e0 : ((((A + 12 + 4 * List.indexOf 0xDEADBEEF [0xDEADBEEF] : Nat) : Int)
      - ((A : Int) + 8)) / 4) = 1 := by
    have : List.indexOf 0xDEADBEEF [0xDEADBEEF] = 0 := by decide
    rw [this]; omega
  have e1 : ((((A + 12 + 4 * List.indexOf 0xDEADBEEF [0xDEADBEEF] : Nat) : Int)
      - (((A + 4 : Nat) : Int) + 8)) / 4) = 0 := by
    have : List.indexOf 0xDEADBEEF [0xDEADBEEF] = 0 := by decide
    rw [this]; omega
  rw [e0] at h0
  rw [e1] at h1
  refine ⟨f1, ?_, ?_, ?_, ?_, ?_⟩
  · unfold scenario_flushed; rw [f5]; simp
  · unfold scenario_flushed
    have := f7 0 (by simp)
    simpa using this
  · unfold scenario_flushed
    rw [h0, from_le_to_le be _ (patch_ldr_lt _ _)]
    decide
  · unfold scenario_flushed
    rw [h1, from_le_to_le be _ (patch_ldr_lt _ _)]
    decide
  · unfold scenario_flushed
    rw [load32_congr be _ (scenario_branch be writer os A).mem (A + 8) (fun j hj =>
      f9 _ (by intro r hr; simp at hr; rcases hr with h | h <;> subst h <;> simp only <;> omega)
        (Or.inl (by omega)))]
    rw [w2, from_le_to_le be _ (by norm_num)]

theorem ldr_literal_address_words (A : Nat) :
    ldr_literal_address A 0xe59f0004 = (A : Int) + 12 ∧
    ldr_literal_address (A + 4) 0xe59f1000 = (A : Int) + 12 := by
  have t0 : Nat.testBit 0xe59f0004 23 = true := by decide
  have t1 : Nat.testBit 0xe59f1000 23 = true := by decide
  unfold ldr_literal_address
  rw [t0, t1]
  simp only [if_true]
  constructor
  · omega
  · push_cast; omega

/-! ## Further facts about single operations -/

theorem flush_refs_nil (be : Bool) (s : GumArmWriter) :
    (gum_arm_writer_flush be s).2.literal_refs = [] := by
  unfold gum_arm_writer_flush
  split
  · rfl
  · rename_i h
    simpa using h

theorem gum_memcpy_apply_in (mem : Memory) (dst : Nat) (data : List Nat) (j : Nat)
    (hj : j < data.length) : gum_memcpy mem dst data (dst + j) = data[j] := by
  unfold gum_memcpy
  rw [if_pos (by omega)]
  rw [Nat.add_sub_cancel_left, List.getD_eq_getElem _ _ hj]

theorem add_word_eq (rd rs : arm_reg) :
    0xe2800000 ||| rd.val <<< 12 ||| rs.val <<< 16 = 2 ^ 12 * (0xe2800 + rd.val + 16 * rs.val) := by
  revert rd rs; decide

theorem ldr_imm_word_eq (rd rs : arm_reg) :
    0xe5900000 ||| rd.val <<< 12 ||| rs.val <<< 16 = 2 ^ 12 * (0xe5900 + rd.val + 16 * rs.val) := by
  revert rd rs; decide

theorem and_int12_mask (imm_val : Nat) : imm_val &&& GUM_INT12_MASK = imm_val % 4096 := by
  have e : GUM_INT12_MASK = 2 ^ 12 - 1 := by decide
  rw [e, Nat.and_pow_two_sub_one_eq_mod]

theorem put_instruction_word (be : Bool) (s : GumArmWriter) (insn : Nat) (h : insn < 2 ^ 32) :
    GUINT32_FROM_LE be (load32 be (gum_arm_writer_put_instruction be s insn).mem s.code) = insn := by
  show GUINT32_FROM_LE be (load32 be (store32 be s.mem s.code (GUINT32_TO_LE be insn)) s.code) = insn
  rw [load32_store32_same be _ _ _ (to_le_lt be _ h), from_le_to_le be _ h]

theorem put_instruction_frame (be : Bool) (s : GumArmWriter) (insn : Nat) (x : Nat)
    (hx : x < s.code ∨ s.code + 4 ≤ x) :
    (gum_arm_writer_put_instruction be s insn).mem x = s.mem x :=
  store32_apply_out be _ _ _ x hx

/-! ## Invariants of the cursor and the program counter -/

theorem reachable_run (be : Bool) (ops : List Op) : ∀ s : GumArmWriter, Reachable be s →
    (∀ op ∈ ops, op.typed) → Reachable be (run be s ops) := by
  induction ops with
  | nil => intro s hs _; exact hs
  | cons op ops ih =>
    intro s hs ht
    exact ih (op.apply be s) (Reachable.step s op hs (ht op (List.mem_cons_self _ _)))
      (fun o ho => ht o (List.mem_cons_of_mem _ ho))

theorem flush_code_pc (be : Bool) (s : GumArmWriter) (h : Inv be s) (hpc : s.pc < 2 ^ 64) :
    ∃ n : Nat, n % 4 = 0 ∧ (gum_arm_writer_flush be s).2.code = s.code + n ∧
      (gum_arm_writer_flush be s).2.pc = (s.pc + n) % 2 ^ 64 ∧
      (gum_arm_writer_flush be s).2.base = s.base := by
  by_cases hne : s.literal_refs = []
  · rw [flush_empty be s hne]
    exact ⟨0, rfl, rfl, (Nat.mod_eq_of_lt hpc).symm, rfl⟩
  · obtain ⟨-, -, h3, -, h5, h6, -⟩ := flush_spec be s hne
      (fun r hr => ⟨(h.refs r hr).2.1, (h.refs r hr).2.2.1⟩) h.sorted
    exact ⟨4 * (first_occurrences (s.literal_refs.map (fun r => r.val))).length, by omega, h5,
      h6, h3⟩

theorem put_b_imm_code_pc (be : Bool) (s : GumArmWriter) (target : Nat) (hpc : s.pc < 2 ^ 64) :
    ∃ n : Nat, n % 4 = 0 ∧ (gum_arm_writer_put_b_imm be s target).2.code = s.code + n ∧
      (gum_arm_writer_put_b_imm be s target).2.pc = (s.pc + n) % 2 ^ 64 ∧
      (gum_arm_writer_put_b_imm be s target).2.base = s.base := by
  cases h : (gum_arm_writer_put_b_imm be s target).1
  · rw [put_b_imm_fail be s target h]
    exact ⟨0, rfl, rfl, (Nat.mod_eq_of_lt hpc).symm, rfl⟩
  · rw [put_b_imm_ok be s target h]
    exact ⟨4, rfl, rfl, rfl, rfl⟩

theorem put_ldr_reg_u32_code_pc (be : Bool) (s : GumArmWriter) (reg : arm_reg) (val : Nat)
    (hpc : s.pc < 2 ^ 64) :
    ∃ n : Nat, n % 4 = 0 ∧ (gum_arm_writer_put_ldr_reg_u32 be s reg val).2.code = s.code + n ∧
      (gum_arm_writer_put_ldr_reg_u32 be s reg val).2.pc = (s.pc + n) % 2 ^ 64 ∧
      (gum_arm_writer_put_ldr_reg_u32 be s reg val).2.base = s.base := by
  by_cases hfull : s.literal_refs.length = GUM_MAX_LITERAL_REF_COUNT
  · rw [put_ldr_reg_u32_full be s reg val hfull]
    exact ⟨0, rfl, rfl, (Nat.mod_eq_of_lt hpc).symm, rfl⟩
  · rw [put_ldr_reg_u32_ok be s reg val hfull]
    exact ⟨4, rfl, rfl, rfl, rfl⟩

theorem put_bytes_code_pc (s : GumArmWriter) (data : List Nat) (hpc : s.pc < 2 ^ 64) :
    ∃ n : Nat, n % 4 = 0 ∧ (gum_arm_writer_put_bytes s data).2.code = s.code + n ∧
      (gum_arm_writer_put_bytes s data).2.pc = (s.pc + n) % 2 ^ 64 ∧
      (gum_arm_writer_put_bytes s data).2.base = s.base := by
  by_cases h : data.length % 4 ≠ 0
  · have e : gum_arm_writer_put_bytes s data = (false, s) := by
      simp only [gum_arm_writer_put_bytes, if_pos h]
    rw [e]
    exact ⟨0, rfl, rfl, (Nat.mod_eq_of_lt hpc).symm, rfl⟩
  · have e : gum_arm_writer_put_bytes s data = (true,
        { s with
          mem := gum_memcpy s.mem s.code data
          code := s.code + 4 * (data.length / 4)
          pc := (s.pc + data.length) % 2 ^ 64 }) := by
      simp only [gum_arm_writer_put_bytes, if_neg h]
    rw [e]
    refine ⟨data.length, by omega, ?_, rfl, rfl⟩
    show s.code + 4 * (data.length / 4) = s.code + data.length
    omega

/-- Every operation but a reset moves the cursor forward by some number of
bytes and the program counter by the same number, modulo 2^64; the number is a
multiple of 4 unless the operation is a skip. -/
theorem apply_code_pc (be : Bool) (s : GumArmWriter) (op : Op) (h : Inv be s)
    (hpc : s.pc < 2 ^ 64) :
    (∃ os a, op = Op.reset os a) ∨
    ∃ n : Nat, (n % 4 = 0 ∨ op = Op.skip n) ∧ (op.apply be s).code = s.code + n ∧
      (op.apply be s).pc = (s.pc + n) % 2 ^ 64 ∧ (op.apply be s).base = s.base := by
  have lift : ∀ s' : GumArmWriter, (∃ n : Nat, n % 4 = 0 ∧ s'.code = s.code + n ∧
      s'.pc = (s.pc + n) % 2 ^ 64 ∧ s'.base = s.base) →
      ∃ n : Nat, (n % 4 = 0 ∨ op = Op.skip n) ∧ s'.code = s.code + n ∧
        s'.pc = (s.pc + n) % 2 ^ 64 ∧ s'.base = s.base := by
    rintro s' ⟨n, h1, h2, h3, h4⟩
    exact ⟨n, Or.inl h1, h2, h3, h4⟩
  have insn : ∀ w : Nat, ∃ n : Nat, n % 4 = 0 ∧
      (gum_arm_writer_put_instruction be s w).code = s.code + n ∧
      (gum_arm_writer_put_instruction be s w).pc = (s.pc + n) % 2 ^ 64 ∧
      (gum_arm_writer_put_instruction be s w).base = s.base :=
    fun w => ⟨4, rfl, rfl, rfl, rfl⟩
  cases op with
  | reset os a => exact Or.inl ⟨os, a, rfl⟩
  | set_target_os os =>
    exact Or.inr ⟨0, Or.inl rfl, rfl, (Nat.mod_eq_of_lt hpc).symm, rfl⟩
  | skip n => exact Or.inr ⟨n, Or.inr rfl, rfl, rfl, rfl⟩
  | flush => exact Or.inr (lift _ (flush_code_pc be s h hpc))
  | put_b_imm target => exact Or.inr (lift _ (put_b_imm_code_pc be s target hpc))
  | put_ldr_reg_address reg address =>
    exact Or.inr (lift _ (put_ldr_reg_u32_code_pc be s reg (address % 2 ^ 32) hpc))
  | put_ldr_reg_u32 reg val => exact Or.inr (lift _ (put_ldr_reg_u32_code_pc be s reg val hpc))
  | put_add_reg_reg_imm d r i => exact Or.inr (lift _ (insn _))
  | put_ldr_reg_reg_imm d r i => exact Or.inr (lift _ (insn _))
  | put_nop => exact Or.inr (lift _ (insn _))
  | put_breakpoint => exact Or.inr (lift _ (insn _))
  | put_instruction w => exact Or.inr (lift _ (insn _))
  | put_bytes data => exact Or.inr (lift _ (put_bytes_code_pc s data hpc))

theorem reachable_pc (be : Bool) (s : GumArmWriter) (h : Reachable be s) :
    s.pc = s.code % 2 ^ 64 := by
  induction h with
  | init writer native_os code_address => rfl
  | step s op hs ht ih =>
    have hpc : s.pc < 2 ^ 64 := by rw [ih]; exact Nat.mod_lt _ (by norm_num)
    rcases apply_code_pc be s op (reachable_inv be s hs) hpc with ⟨os, a, rfl⟩ | ⟨n, -, h2, h3, -⟩
    · rfl
    · rw [h3, h2, ih]; omega


theorem run_aligned (be : Bool) (ops : List Op) : ∀ s : GumArmWriter, Reachable be s →
    (∀ op ∈ ops, op.typed) → (∀ op ∈ ops, op.word_aligned) →
    s.base % 4 = 0 → s.code % 4 = 0 →
    (run be s ops).base % 4 = 0 ∧ (run be s ops).code % 4 = 0 := by
  induction ops with
  | nil => intro s _ _ _ hb hc; exact ⟨hb, hc⟩
  | cons op ops ih =>
    intro s hs ht ha hb hc
    have hpc : s.pc < 2 ^ 64 := by
      rw [reachable_pc be s hs]; exact Nat.mod_lt _ (by norm_num)
    have hop := ha op (List.mem_cons_self _ _)
    have hstep : (op.apply be s).base % 4 = 0 ∧ (op.apply be s).code % 4 = 0 := by
      rcases apply_code_pc be s op (reachable_inv be s hs) hpc with
        ⟨os, a, rfl⟩ | ⟨n, h1, h2, -, h4⟩
      · exact ⟨hop, hop⟩
      · have hn : n % 4 = 0 := by
          rcases h1 with h | h
          · exact h
          · rw [h] at hop; exact hop
        rw [h2, h4]; exact ⟨hb, by omega⟩
    exact ih (op.apply be s) (Reachable.step s op hs (ht op (List.mem_cons_self _ _)))
      (fun o ho => ht o (List.mem_cons_of_mem _ ho))
      (fun o ho => ha o (List.mem_cons_of_mem _ ho)) hstep.1 hstep.2

theorem skipped_byte_writer_reachable : Reachable false skipped_byte_writer :=
  reachable_run false [Op.skip 1] _ (Reachable.init blank_writer .GUM_OS_LINUX 4096)
    (by simp [Op.typed])

/-! ## The frame of a flush, in any state -/

theorem flush_ref_frame (be : Bool) (F : Nat) (st : Memory × Nat) (r : GumArmLiteralRef) :
    st.2 ≤ (flush_ref be F st r).2 ∧
    (∀ x, (x < r.insn ∨ r.insn + 4 ≤ x) → (x < st.2 ∨ (flush_ref be F st r).2 ≤ x) →
      (flush_ref be F st r).1 x = st.1 x) := by
  by_cases h : find_slot be st.1 r.val F ((st.2 - F) / 4) = st.2
  · have e2 : (flush_ref be F st r).2 = st.2 + 4 := by
      simp only [flush_ref, h, if_true]
    have e1 : ∃ v, (flush_ref be F st r).1
        = store32 be (store32 be st.1 st.2 r.val) r.insn v :=
      ⟨_, by simp only [flush_ref, h, if_true]; rfl⟩
    obtain ⟨v, e1⟩ := e1
    refine ⟨by omega, ?_⟩
    intro x hx hx2
    rw [e1, store32_apply_out be _ _ _ x hx]
    exact store32_apply_out be _ _ _ x (by omega)
  · have e2 : (flush_ref be F st r).2 = st.2 := by
      simp only [flush_ref, if_neg h]
    have e1 : ∃ v, (flush_ref be F st r).1 = store32 be st.1 r.insn v :=
      ⟨_, by simp only [flush_ref, if_neg h]; rfl⟩
    obtain ⟨v, e1⟩ := e1
    refine ⟨by omega, ?_⟩
    intro x hx _
    rw [e1]
    exact store32_apply_out be _ _ _ x hx

theorem flush_fold_frame (be : Bool) (F : Nat) (rs : List GumArmLiteralRef) :
    ∀ st : Memory × Nat,
      st.2 ≤ (rs.foldl (flush_ref be F) st).2 ∧
      (∀ x, (∀ r ∈ rs, x < r.insn ∨ r.insn + 4 ≤ x) →
        (x < st.2 ∨ (rs.foldl (flush_ref be F) st).2 ≤ x) →
        (rs.foldl (flush_ref be F) st).1 x = st.1 x) := by
  induction rs with
  | nil => intro st; exact ⟨Nat.le_refl _, fun _ _ _ => rfl⟩
  | cons r rs ih =>
    intro st
    obtain ⟨h1, h2⟩ := flush_ref_frame be F st r
    obtain ⟨h3, h4⟩ := ih (flush_ref be F st r)
    simp only [List.foldl_cons]
    refine ⟨by omega, ?_⟩
    intro x hx hx2
    rw [h4 x (fun r' hr' => hx r' (List.mem_cons_of_mem _ hr')) (by omega)]
    exact h2 x (hx r (List.mem_cons_self _ _)) (by omega)

theorem flush_ref_first (be : Bool) (F : Nat) (mem : Memory) (r : GumArmLiteralRef) :
    (flush_ref be F (mem, F) r).2 = F + 4 := by
  simp [flush_ref, find_slot]

theorem flush_frame (be : Bool) (s : GumArmWriter) :
    (gum_arm_writer_flush be s).2.base = s.base ∧
    (gum_arm_writer_flush be s).2.target_os = s.target_os ∧
    s.code ≤ (gum_arm_writer_flush be s).2.code ∧
    (s.literal_refs ≠ [] → s.code + 4 ≤ (gum_arm_writer_flush be s).2.code) ∧
    (∀ x, (∀ r ∈ s.literal_refs, x < r.insn ∨ r.insn + 4 ≤ x) →
      (x < s.code ∨ (gum_arm_writer_flush be s).2.code ≤ x) →
      (gum_arm_writer_flush be s).2.mem x = s.mem x) := by
  by_cases hne : s.literal_refs = []
  · rw [flush_empty be s hne]
    exact ⟨rfl, rfl, Nat.le_refl _, fun h => absurd hne h, fun _ _ _ => rfl⟩
  · have hpos : s.literal_refs.length > 0 := List.length_pos.2 hne
    have e : gum_arm_writer_flush be s = (true, { s with
        literal_refs := []
        code := (s.literal_refs.foldl (flush_ref be s.code) (s.mem, s.code)).2
        pc := (s.pc + ((s.literal_refs.foldl (flush_ref be s.code) (s.mem, s.code)).2 - s.code))
          % 2 ^ 64
        mem := (s.literal_refs.foldl (flush_ref be s.code) (s.mem, s.code)).1 }) := by
      simp only [gum_arm_writer_flush, if_pos hpos]
    obtain ⟨h1, h2⟩ := flush_fold_frame be s.code s.literal_refs (s.mem, s.code)
    have h4 : s.code + 4 ≤ (s.literal_refs.foldl (flush_ref be s.code) (s.mem, s.code)).2 := by
      cases hl : s.literal_refs with
      | nil => exact absurd hl hne
      | cons r rs =>
        simp only [List.foldl_cons]
        have := (flush_fold_frame be s.code rs (flush_ref be s.code (s.mem, s.code) r)).1
        rw [flush_ref_first] at this
        exact this
    rw [e]
    exact ⟨rfl, rfl, h1, fun _ => h4, h2⟩

theorem inv_pending_ref_inv (be : Bool) (s : GumArmWriter) (h : Inv be s) : PendingRefInv s := by
  refine ⟨h.count, fun r hr => ?_, h.sorted.imp (fun hab => by omega)⟩
  have := h.refs r hr
  exact ⟨this.1, by omega⟩

/-! ## A batch of constant loads and its flush -/

theorem batch_flushed_spec (be : Bool) (s : GumArmWriter) (calls : List (arm_reg × Nat))
    (h0 : s.literal_refs = []) (hN1 : 1 ≤ calls.length) (hN : calls.length ≤ 100)
    (hv : ∀ c ∈ calls, c.2 < 2 ^ 32) :
    (put_ldr_reg_u32_seq be s calls).2.code = s.code + 4 * calls.length ∧
    (batch_flushed be s calls).literal_refs = [] ∧
    (batch_flushed be s calls).code = (put_ldr_reg_u32_seq be s calls).2.code
      + 4 * (first_occurrences (calls.map (fun c => c.2))).length ∧
    (∀ j (hj : j < (first_occurrences (calls.map (fun c => c.2))).length),
      load32 be (batch_flushed be s calls).mem ((put_ldr_reg_u32_seq be s calls).2.code + 4 * j)
        = (first_occurrences (calls.map (fun c => c.2)))[j]) ∧
    (∀ x, x < s.code → (batch_flushed be s calls).mem x = s.mem x) := by
  obtain ⟨-, p2, p3, -, p6, -⟩ := put_ldr_reg_u32_seq_spec be calls s
    (by rw [h0]; simp [GUM_MAX_LITERAL_REF_COUNT]; exact hN)
  rw [h0, List.nil_append] at p2
  have hne : (put_ldr_reg_u32_seq be s calls).2.literal_refs ≠ [] := by
    rw [p2]
    cases calls with
    | nil => simp at hN1
    | cons c cs => simp [seq_refs]
  have hok : ∀ r ∈ (put_ldr_reg_u32_seq be s calls).2.literal_refs,
      r.insn + 4 ≤ (put_ldr_reg_u32_seq be s calls).2.code ∧ r.val < 2 ^ 32 := by
    intro r hr
    rw [p2] at hr
    obtain ⟨i, hi, h⟩ := (mem_seq_refs calls s.code r).1 hr
    rw [h, p3]
    exact ⟨by simp; omega, hv _ (List.getElem_mem _)⟩
  obtain ⟨-, f2, -, -, f5, -, f7, -, f9⟩ := flush_spec be _ hne hok
    (by rw [p2]; exact pairwise_seq_refs calls s.code)
  rw [p2, seq_refs_map_val] at f5 f7
  refine ⟨p3, f2, f5, f7, ?_⟩
  intro x hx
  unfold batch_flushed
  rw [f9 x _ (Or.inl (by rw [p3]; omega)), p6 x (Or.inl hx)]
  intro r hr
  rw [p2] at hr
  obtain ⟨i, hi, h⟩ := (mem_seq_refs calls s.code r).1 hr
  rw [h]
  left; simp; omega

/-! ## Truncating division in the branch builder -/

theorem tdiv_four (d : Int) : Int.tdiv d 4 = if 0 ≤ d then d / 4 else -((-d) / 4) := by
  split
  · rename_i h
    exact Int.tdiv_eq_ediv h (by norm_num)
  · rename_i h
    have e : d = -(-d) := by omega
    conv_lhs => rw [e]
    rw [Int.neg_tdiv, Int.tdiv_eq_ediv (by omega) (by norm_num)]

/-! ## The bytes of the stored words -/

theorem byte_of_bytes (c0 c1 c2 c3 : Nat) (h0 : c0 < 256) (h1 : c1 < 256) (h2 : c2 < 256)
    (h3 : c3 < 256) :
    (c0 + 256 * c1 + 65536 * c2 + 16777216 * c3) / 256 ^ 0 % 256 = c0 ∧
    (c0 + 256 * c1 + 65536 * c2 + 16777216 * c3) / 256 ^ 1 % 256 = c1 ∧
    (c0 + 256 * c1 + 65536 * c2 + 16777216 * c3) / 256 ^ 2 % 256 = c2 ∧
    (c0 + 256 * c1 + 65536 * c2 + 16777216 * c3) / 256 ^ 3 % 256 = c3 := by
  refine ⟨?_, ?_, ?_, ?_⟩
  · simp; omega
  · simp; omega
  · norm_num; omega
  · norm_num; omega

theorem store32_to_le_bytes (be : Bool) (mem : Memory) (a v j : Nat) (hv : v < 2 ^ 32)
    (hj : j < 4) : store32 be mem a (GUINT32_TO_LE be v) (a + j) = le_byte v j := by
  rw [store32_apply_in be mem a _ j hj]
  obtain ⟨b0, b1, b2, b3, h0, h1, h2, h3, rfl⟩ := bytes_of_lt v hv
  obtain ⟨l0, l1, l2, l3⟩ := byte_of_bytes b0 b1 b2 b3 h0 h1 h2 h3
  obtain ⟨m0, m1, m2, m3⟩ := byte_of_bytes b3 b2 b1 b0 h3 h2 h1 h0
  have hj' : j = 0 ∨ j = 1 ∨ j = 2 ∨ j = 3 := by omega
  unfold host_byte GUINT32_TO_LE le_byte
  cases be
  · simp
  · simp only [if_true]
    rw [bswap32_bytes b0 b1 b2 b3 h0 h1 h2 h3]
    rcases hj' with rfl | rfl | rfl | rfl
    · rw [l0]; exact m3
    · rw [l1]; exact m2
    · rw [l2]; exact m1
    · rw [l3]; exact m0

/-- The instruction word written by `gum_arm_writer_put_instruction` lies in
memory as the little-endian byte sequence of its value, on either host. -/
theorem put_instruction_bytes_le (be : Bool) (s : GumArmWriter) (insn : Nat)
    (h : insn < 2 ^ 32) (j : Nat) (hj : j < 4) :
    (gum_arm_writer_put_instruction be s insn).mem (s.code + j) = le_byte insn j :=
  store32_to_le_bytes be s.mem s.code insn j h hj

/-! ## The byte order of the words a flush stores -/

theorem store32_lt (be : Bool) (mem : Memory) (a v : Nat) (h : ∀ x, mem x < 256) :
    ∀ x, store32 be mem a v x < 256 := by
  intro x
  unfold store32
  split
  · exact host_byte_lt be v _
  · exact h x

theorem flush_ref_bytes_lt (be : Bool) (F : Nat) (st : Memory × Nat) (r : GumArmLiteralRef)
    (h : ∀ x, st.1 x < 256) : ∀ x, (flush_ref be F st r).1 x < 256 := by
  by_cases hc : find_slot be st.1 r.val F ((st.2 - F) / 4) = st.2
  · have e1 : ∃ v, (flush_ref be F st r).1
        = store32 be (store32 be st.1 st.2 r.val) r.insn v :=
      ⟨_, by simp only [flush_ref, hc, if_true]; rfl⟩
    obtain ⟨v, e1⟩ := e1
    rw [e1]
    exact store32_lt be _ _ _ (store32_lt be _ _ _ h)
  · have e1 : ∃ v, (flush_ref be F st r).1 = store32 be st.1 r.insn v :=
      ⟨_, by simp only [flush_ref, if_neg hc]; rfl⟩
    obtain ⟨v, e1⟩ := e1
    rw [e1]
    exact store32_lt be _ _ _ h

theorem flush_fold_bytes_lt (be : Bool) (F : Nat) (rs : List GumArmLiteralRef) :
    ∀ st : Memory × Nat, (∀ x, st.1 x < 256) →
      ∀ x, (rs.foldl (flush_ref be F) st).1 x < 256 := by
  induction rs with
  | nil => intro st h; exact h
  | cons r rs ih =>
    intro st h
    simp only [List.foldl_cons]
    exact ih _ (flush_ref_bytes_lt be F st r h)

theorem flush_bytes_lt (be : Bool) (s : GumArmWriter) (h : ∀ x, s.mem x < 256) :
    ∀ x, (gum_arm_writer_flush be s).2.mem x < 256 := by
  unfold gum_arm_writer_flush
  split
  · exact flush_fold_bytes_lt be s.code s.literal_refs (s.mem, s.code) h
  · exact h

theorem bytes_of_load32 (be : Bool) (m : Memory) (a v : Nat)
    (hb : ∀ j, j < 4 → m (a + j) < 256) (h : load32 be m a = v) :
    ∀ j, j < 4 → m (a + j) = host_byte be v j := by
  have h0 := hb 0 (by omega); have h1 := hb 1 (by omega)
  have h2 := hb 2 (by omega); have h3 := hb 3 (by omega)
  simp only [Nat.add_zero] at h0
  intro j hj
  have hj' : j = 0 ∨ j = 1 ∨ j = 2 ∨ j = 3 := by omega
  subst h
  cases be
  · have e : load32 false m a
        = m a + 256 * m (a + 1) + 65536 * m (a + 2) + 16777216 * m (a + 3) := by
      simp only [load32]; simp; omega
    obtain ⟨l0, l1, l2, l3⟩ := byte_of_bytes _ _ _ _ h0 h1 h2 h3
    rw [e]
    simp only [host_byte, Bool.false_eq_true, if_false]
    rcases hj' with rfl | rfl | rfl | rfl
    · exact l0.symm
    · exact l1.symm
    · exact l2.symm
    · exact l3.symm
  · have e : load32 true m a
        = m (a + 3) + 256 * m (a + 2) + 65536 * m (a + 1) + 16777216 * m a := by
      simp only [load32]; simp; omega
    obtain ⟨l0, l1, l2, l3⟩ := byte_of_bytes _ _ _ _ h3 h2 h1 h0
    rw [e]
    simp only [host_byte, if_true]
    rcases hj' with rfl | rfl | rfl | rfl
    · exact l3.symm
    · exact l2.symm
    · exact l1.symm
    · exact l0.symm

theorem host_byte_to_le (be : Bool) (v j : Nat) (hv : v < 2 ^ 32) (hj : j < 4) :
    host_byte be (GUINT32_TO_LE be v) j = le_byte v j := by
  have h1 := store32_to_le_bytes be (fun _ => 0) 0 v j hv hj
  rw [store32_apply_in be _ 0 _ j hj] at h1
  exact h1

theorem big_endian_load_writer_reachable : Reachable true big_endian_load_writer :=
  Reachable.step _ (Op.put_ldr_reg_u32 0 0xDEADBEEF)
    (Reachable.init blank_writer .GUM_OS_LINUX 4096) (by simp [Op.typed])

theorem big_endian_load_writer_bytes : ∀ x, big_endian_load_writer.mem x < 256 :=
  store32_lt true _ _ _ (fun _ => (by decide : (0 : Nat) < 256))

/-! ## Loads within reach of their pool word -/

/-- In every reachable writer state whose cursor and pending instruction
slots are word-aligned relative to `base`, `gum_arm_writer_flush` returns TRUE
and empties the pending list, and for each pending reference, with `i` the word
index of its instruction, there is a word index `k` in the pool window whose
word holds the referenced value such that, when `k` is at most 1023 words
beyond `i + 2`, the load word has low 12 bits `4 * |k - (i + 2)|`, bit 23 set
exactly when `k - (i + 2) ≥ 0`, and every other bit as emitted. -/
theorem flush_patches_loads_in_range (be : Bool) (s : GumArmWriter) (hs : Reachable be s)
    (hcode : (s.code - s.base) % 4 = 0)
    (hslots : ∀ r ∈ s.literal_refs, (r.insn - s.base) % 4 = 0) :
    (gum_arm_writer_flush be s).1 = true ∧
    (gum_arm_writer_flush be s).2.literal_refs = [] ∧
    ∀ r ∈ s.literal_refs, ∃ k : Nat,
      s.code ≤ s.base + 4 * k ∧
      s.base + 4 * k + 4 ≤ (gum_arm_writer_flush be s).2.code ∧
      load32 be (gum_arm_writer_flush be s).2.mem (s.base + 4 * k) = r.val ∧
      (k ≤ (r.insn - s.base) / 4 + 2 + 1023 →
        GUINT32_FROM_LE be (load32 be (gum_arm_writer_flush be s).2.mem r.insn) % 4096
          = 4 * ((k : Int) - (((r.insn - s.base) / 4 : Nat) + 2)).natAbs ∧
        (GUINT32_FROM_LE be (load32 be (gum_arm_writer_flush be s).2.mem r.insn)).testBit 23
          = decide ((k : Int) - (((r.insn - s.base) / 4 : Nat) + 2) ≥ 0) ∧
        ∀ b, 12 ≤ b → b ≠ 23 →
          (GUINT32_FROM_LE be (load32 be (gum_arm_writer_flush be s).2.mem r.insn)).testBit b
            = (GUINT32_FROM_LE be (load32 be s.mem r.insn)).testBit b) := by
  have hinv := reachable_inv be s hs
  by_cases hne : s.literal_refs = []
  · rw [flush_empty be s hne]
    refine ⟨rfl, hne, ?_⟩
    intro r hr
    rw [hne] at hr
    simp at hr
  · obtain ⟨f1, f2, -, -, f5, -, f7, f8, -⟩ := flush_spec be s hne
      (fun r hr => ⟨(hinv.refs r hr).2.1, (hinv.refs r hr).2.2.1⟩) hinv.sorted
    refine ⟨f1, f2, ?_⟩
    intro r hr
    obtain ⟨hb, hc, hv, reg, hw⟩ := hinv.refs r hr
    have hbase := hinv.base_le
    have hsl := hslots r hr
    have hreg := reg.isLt
    have hidx : (first_occurrences (s.literal_refs.map (fun r => r.val))).indexOf r.val
        < (first_occurrences (s.literal_refs.map (fun r => r.val))).length :=
      List.indexOf_lt_length.2 ((mem_first_occurrences _ _).2 (List.mem_map.2 ⟨r, hr, rfl⟩))
    have hload := f8 r hr
    rw [hw, from_le_to_le be _ (ldr_word_lt reg)] at hload
    refine ⟨(s.code - s.base) / 4
      + (first_occurrences (s.literal_refs.map (fun r => r.val))).indexOf r.val, by omega,
      by rw [f5]; omega, ?_, ?_⟩
    · have := f7 _ hidx
      rw [List.getElem_indexOf hidx] at this
      have e : s.base + 4 * ((s.code - s.base) / 4
          + (first_occurrences (s.literal_refs.map (fun r => r.val))).indexOf r.val)
          = s.code + 4 * (first_occurrences (s.literal_refs.map (fun r => r.val))).indexOf r.val := by
        omega
      rw [e]; exact this
    · intro hk
      rw [hload, hw, from_le_to_le be _ (patch_ldr_lt _ _), from_le_to_le be _ (ldr_word_lt reg)]
      refine ⟨?_, ?_, ?_⟩
      · rw [patch_ldr_arith reg _ (by omega)]
        split <;> omega
      · rw [patch_ldr_arith reg _ (by omega), Nat.testBit_to_div_mod]
        by_cases hd : (((s.code + 4 * (first_occurrences
            (s.literal_refs.map (fun r => r.val))).indexOf r.val : Nat) : Int)
            - ((r.insn : Int) + 8)) / 4 ≥ 0
        · rw [if_pos hd]
          have e1 : decide (((((s.code - s.base) / 4 + (first_occurrences
            (s.literal_refs.map (fun r => r.val))).indexOf r.val : Nat) : Int)
            - ((((r.insn - s.base) / 4 : Nat) : Int) + 2)) ≥ 0) = true := by
            simp; omega
          rw [e1]
          simp; omega
        · rw [if_neg hd]
          have e1 : decide (((((s.code - s.base) / 4 + (first_occurrences
            (s.literal_refs.map (fun r => r.val))).indexOf r.val : Nat) : Int)
            - ((((r.insn - s.base) / 4 : Nat) : Int) + 2)) ≥ 0) = false := by
            simp; omega
          rw [e1]
          simp; omega
      · intro b hb12 hb23
        exact patch_ldr_testBit _ (ldr_word_lt reg) _ (by omega) b hb12 hb23

theorem flush_patches_one_load :
    (gum_arm_writer_flush false one_load_writer).1 = true ∧
    (gum_arm_writer_flush false one_load_writer).2.literal_refs = [] :=
  ⟨(flush_patches_loads_in_range false one_load_writer one_load_writer_reachable
      (by decide) (by decide)).1,
    (flush_patches_loads_in_range false one_load_writer one_load_writer_reachable
      (by decide) (by decide)).2.1⟩

/-! ## The claims -/

/-- C1: from a writer with no pending literal reference and a word-aligned
cursor, N calls (1 ≤ N ≤ 100) of `gum_arm_writer_put_ldr_reg_u32` with any
registers and any 32-bit values all return TRUE, the flush that follows returns
TRUE, and the i-th load word, decoded by the ARM PC-relative formula, addresses
a word of the pool (word-aligned, between the pre-flush and the post-flush
cursor) whose value is the i-th requested constant.  Instruction words are read
through `GUINT32_FROM_LE` and pool words as the writer itself reads them. -/
theorem C1_loads_address_their_constants (be : Bool) (s : GumArmWriter)
    (calls : List (arm_reg × Nat)) (h0 : s.literal_refs = []) (hal : s.code % 4 = 0)
    (hN1 : 1 ≤ calls.length) (hN : calls.length ≤ 100) (hv : ∀ c ∈ calls, c.2 < 2 ^ 32) :
    (put_ldr_reg_u32_seq be s calls).1 = true ∧
    (gum_arm_writer_flush be (put_ldr_reg_u32_seq be s calls).2).1 = true ∧
    ∀ i (hi : i < calls.length), ∃ a : Nat,
      ldr_literal_address (s.code + 4 * i) (GUINT32_FROM_LE be (load32 be
        (gum_arm_writer_flush be (put_ldr_reg_u32_seq be s calls).2).2.mem (s.code + 4 * i)))
          = (a : Int) ∧
      s.code + 4 * calls.length ≤ a ∧
      a + 4 ≤ (gum_arm_writer_flush be (put_ldr_reg_u32_seq be s calls).2).2.code ∧
      a % 4 = 0 ∧
      load32 be (gum_arm_writer_flush be (put_ldr_reg_u32_seq be s calls).2).2.mem a
        = calls[i].2 := by
  obtain ⟨p1, p2, p3, -, -, p7⟩ := put_ldr_reg_u32_seq_spec be calls s
    (by rw [h0]; simp [GUM_MAX_LITERAL_REF_COUNT]; exact hN)
  rw [h0, List.nil_append] at p2
  have hne : (put_ldr_reg_u32_seq be s calls).2.literal_refs ≠ [] := by
    rw [p2]
    cases calls with
    | nil => simp at hN1
    | cons c cs => simp [seq_refs]
  have hok : ∀ r ∈ (put_ldr_reg_u32_seq be s calls).2.literal_refs,
      r.insn + 4 ≤ (put_ldr_reg_u32_seq be s calls).2.code ∧ r.val < 2 ^ 32 := by
    intro r hr
    rw [p2] at hr
    obtain ⟨i, hi, h⟩ := (mem_seq_refs calls s.code r).1 hr
    rw [h, p3]
    exact ⟨by simp; omega, hv _ (List.getElem_mem _)⟩
  obtain ⟨f1, -, -, -, f5, -, f7, f8, -⟩ := flush_spec be _ hne hok
    (by rw [p2]; exact pairwise_seq_refs calls s.code)
  refine ⟨p1, f1, ?_⟩
  intro i hi
  rw [p2, seq_refs_map_val] at f5 f7 f8
  have hmem : (⟨s.code + 4 * i, calls[i].2⟩ : GumArmLiteralRef) ∈ seq_refs s.code calls :=
    (mem_seq_refs calls s.code _).2 ⟨i, hi, rfl⟩
  have hvi : calls[i].2 ∈ calls.map (fun c => c.2) :=
    List.mem_map.2 ⟨calls[i], List.getElem_mem _, rfl⟩
  have hidx : (first_occurrences (calls.map (fun c => c.2))).indexOf calls[i].2
      < (first_occurrences (calls.map (fun c => c.2))).length :=
    List.indexOf_lt_length.2 ((mem_first_occurrences _ _).2 hvi)
  have hlen : (first_occurrences (calls.map (fun c => c.2))).length ≤ calls.length := by
    simpa using length_first_occurrences_le (calls.map (fun c => c.2))
  have hload := f8 _ hmem
  simp only at hload
  rw [p7 i hi, from_le_to_le be _ (ldr_word_lt _), p3] at hload
  rw [hload, from_le_to_le be _ (patch_ldr_lt _ _)]
  rw [ldr_literal_address_patch _ _ _ (by omega)]
  refine ⟨s.code + 4 * calls.length
    + 4 * (first_occurrences (calls.map (fun c => c.2))).indexOf calls[i].2, ?_, ?_, ?_, ?_, ?_⟩
  · push_cast; omega
  · omega
  · rw [f5, p3]; omega
  · omega
  · have := f7 _ hidx
    rw [p3] at this
    rw [Nat.add_assoc] at this ⊢
    rw [this]
    exact List.getElem_indexOf hidx

theorem C1_loads_address_their_constants_witness :
    ∃ a : Nat,
      ldr_literal_address (4096 + 4 * 2) (GUINT32_FROM_LE false (load32 false
        (gum_arm_writer_flush false (put_ldr_reg_u32_seq false
          (gum_arm_writer_reset blank_writer .GUM_OS_LINUX 4096) three_loads).2).2.mem
        (4096 + 4 * 2))) = (a : Int) ∧
      4096 + 4 * 3 ≤ a ∧
      a + 4 ≤ (gum_arm_writer_flush false (put_ldr_reg_u32_seq false
        (gum_arm_writer_reset blank_writer .GUM_OS_LINUX 4096) three_loads).2).2.code ∧
      a % 4 = 0 ∧
      load32 false (gum_arm_writer_flush false (put_ldr_reg_u32_seq false
        (gum_arm_writer_reset blank_writer .GUM_OS_LINUX 4096) three_loads).2).2.mem a
        = 0xDEADBEEF :=
  (C1_loads_address_their_constants false (gum_arm_writer_reset blank_writer .GUM_OS_LINUX 4096)
    three_loads (by decide) (by decide) (by decide) (by decide) (by decide)).2.2 2 (by decide)

/-- C2: in every reachable writer state with at least one pending reference,
after `gum_arm_writer_flush` the consecutive words from the pre-flush cursor
hold the distinct pending values, each once, in order of first occurrence;
the cursor has advanced by 4 bytes per distinct value and so has the program
counter (a `guint64`, so modulo 2^64); and when all pending values are the
same value there is exactly one pool word.  Pool words are read as the writer
itself reads them, in host order. -/
theorem C2_pool_holds_distinct_values (be : Bool) (s : GumArmWriter) (hs : Reachable be s)
    (hN : s.literal_refs ≠ []) :
    (first_occurrences (s.literal_refs.map (fun r => r.val))).Nodup ∧
    (∀ v, v ∈ first_occurrences (s.literal_refs.map (fun r => r.val))
      ↔ ∃ r ∈ s.literal_refs, r.val = v) ∧
    (∀ j (hj : j < (first_occurrences (s.literal_refs.map (fun r => r.val))).length),
      load32 be (gum_arm_writer_flush be s).2.mem (s.code + 4 * j)
        = (first_occurrences (s.literal_refs.map (fun r => r.val)))[j]) ∧
    (gum_arm_writer_flush be s).2.code
      = s.code + 4 * (first_occurrences (s.literal_refs.map (fun r => r.val))).length ∧
    (gum_arm_writer_flush be s).2.pc
      = (s.pc + 4 * (first_occurrences (s.literal_refs.map (fun r => r.val))).length) % 2 ^ 64 ∧
    (∀ v, (∀ r ∈ s.literal_refs, r.val = v) →
      first_occurrences (s.literal_refs.map (fun r => r.val)) = [v] ∧
      load32 be (gum_arm_writer_flush be s).2.mem s.code = v ∧
      (gum_arm_writer_flush be s).2.code = s.code + 4) := by
  have hinv := reachable_inv be s hs
  obtain ⟨-, -, -, -, f5, f6, f7, -, -⟩ := flush_spec be s hN
    (fun r hr => ⟨(hinv.refs r hr).2.1, (hinv.refs r hr).2.2.1⟩) hinv.sorted
  refine ⟨nodup_first_occurrences _, ?_, f7, f5, f6, ?_⟩
  · intro v
    rw [mem_first_occurrences, List.mem_map]
  · intro v hv
    have hc : first_occurrences (s.literal_refs.map (fun r => r.val)) = [v] := by
      apply first_occurrences_const
      · simpa using hN
      · intro x hx
        obtain ⟨r, hr, rfl⟩ := List.mem_map.1 hx
        exact hv r hr
    refine ⟨hc, ?_, ?_⟩
    · have := f7 0 (by rw [hc]; simp)
      simpa [hc] using this
    · rw [f5, hc]; rfl

theorem C2_pool_holds_distinct_values_witness :
    load32 false (gum_arm_writer_flush false one_load_writer).2.mem one_load_writer.code = 1 ∧
    (gum_arm_writer_flush false one_load_writer).2.code = one_load_writer.code + 4 :=
  ((C2_pool_holds_distinct_values false one_load_writer one_load_writer_reachable
    (by decide)).2.2.2.2.2 1 (by decide)).2

/-- C3, evaluated where the code breaks it: one constant load into r0 at the
base (word 0), 4100 skipped bytes, then a flush.  The only pool word is word
1026, 1024 words beyond word 2; `gum_arm_writer_flush` returns TRUE and ORs the
byte distance 4096 into the load word unmasked: the low 12 bits stay 0 and bit
12 is set, so the destination register r0 becomes r1 and the load addresses
4104 instead of the pool word at 8200. -/
theorem C3_far_pool_load_is_corrupted :
    Reachable false far_pool_writer ∧
    far_pool_writer.literal_refs = [⟨4096, 1⟩] ∧
    far_pool_writer.base = 4096 ∧
    far_pool_writer.code = 4096 + 4 * 1026 ∧
    (gum_arm_writer_flush false far_pool_writer).1 = true ∧
    (gum_arm_writer_flush false far_pool_writer).2.literal_refs = [] ∧
    (gum_arm_writer_flush false far_pool_writer).2.code = 4096 + 4 * 1027 ∧
    load32 false (gum_arm_writer_flush false far_pool_writer).2.mem (4096 + 4 * 1026) = 1 ∧
    GUINT32_FROM_LE false (load32 false far_pool_writer.mem 4096) = 0xe51f0000 ∧
    GUINT32_FROM_LE false (load32 false (gum_arm_writer_flush false far_pool_writer).2.mem 4096)
      = 0xe59f1000 ∧
    ¬ (GUINT32_FROM_LE false
        (load32 false (gum_arm_writer_flush false far_pool_writer).2.mem 4096) % 4096
      = 4 * ((1026 : Int) - (0 + 2)).natAbs) ∧
    ¬ ((GUINT32_FROM_LE false
        (load32 false (gum_arm_writer_flush false far_pool_writer).2.mem 4096)).testBit 12
      = (GUINT32_FROM_LE false (load32 false far_pool_writer.mem 4096)).testBit 12) ∧
    GUINT32_FROM_LE false (load32 false far_pool_writer.mem 4096) / 4096 % 16 = 0 ∧
    GUINT32_FROM_LE false
      (load32 false (gum_arm_writer_flush false far_pool_writer).2.mem 4096) / 4096 % 16 = 1 ∧
    ldr_literal_address 4096 (GUINT32_FROM_LE false
      (load32 false (gum_arm_writer_flush false far_pool_writer).2.mem 4096)) = 4104 :=
  ⟨far_pool_writer_reachable, by decide, by decide, by decide, by decide, by decide, by decide,
    by decide, by decide, by decide, by decide, by decide, by decide, by decide, by decide⟩

/-- C4: `gum_arm_writer_put_ldr_reg_u32` returns FALSE exactly when 100
(`GUM_MAX_LITERAL_REF_COUNT`) literal references are pending; so from a state
with none pending, 100 consecutive calls all return TRUE and record 100
references, and a 101st call returns FALSE and leaves the whole state
(references, cursor, program counter, buffer) as it was. -/
theorem C4_capacity_boundary (be : Bool) (s : GumArmWriter) (reg : arm_reg) (val : Nat)
    (calls : List (arm_reg × Nat)) :
    GUM_MAX_LITERAL_REF_COUNT = 100 ∧
    ((gum_arm_writer_put_ldr_reg_u32 be s reg val).1 = false
      ↔ s.literal_refs.length = GUM_MAX_LITERAL_REF_COUNT) ∧
    (s.literal_refs = [] → calls.length = 100 →
      (put_ldr_reg_u32_seq be s calls).1 = true ∧
      (put_ldr_reg_u32_seq be s calls).2.literal_refs = seq_refs s.code calls ∧
      (put_ldr_reg_u32_seq be s calls).2.literal_refs.length = 100 ∧
      gum_arm_writer_put_ldr_reg_u32 be (put_ldr_reg_u32_seq be s calls).2 reg val
        = (false, (put_ldr_reg_u32_seq be s calls).2)) := by
  refine ⟨rfl, ?_, ?_⟩
  · by_cases h : s.literal_refs.length = GUM_MAX_LITERAL_REF_COUNT
    · simp [put_ldr_reg_u32_full be s reg val h, h]
    · simp [put_ldr_reg_u32_ok be s reg val h, h]
  · intro h0 hlen
    obtain ⟨p1, p2, -⟩ := put_ldr_reg_u32_seq_spec be calls s
      (by rw [h0, hlen]; simp [GUM_MAX_LITERAL_REF_COUNT])
    rw [h0, List.nil_append] at p2
    have hl : (seq_refs s.code calls).length = 100 := by
      have := congrArg List.length (seq_refs_map_val calls s.code)
      simpa [hlen] using this
    refine ⟨p1, p2, by rw [p2]; exact hl, ?_⟩
    exact put_ldr_reg_u32_full be _ reg val (by rw [p2]; exact hl)

theorem C4_capacity_boundary_witness :
    (put_ldr_reg_u32_seq false (gum_arm_writer_reset blank_writer .GUM_OS_LINUX 4096)
      hundred_loads).1 = true ∧
    gum_arm_writer_put_ldr_reg_u32 false (put_ldr_reg_u32_seq false
        (gum_arm_writer_reset blank_writer .GUM_OS_LINUX 4096) hundred_loads).2 4 9
      = (false, (put_ldr_reg_u32_seq false
        (gum_arm_writer_reset blank_writer .GUM_OS_LINUX 4096) hundred_loads).2) :=
  ⟨((C4_capacity_boundary false (gum_arm_writer_reset blank_writer .GUM_OS_LINUX 4096) 4 9
      hundred_loads).2.2 (by decide) (by decide)).1,
    ((C4_capacity_boundary false (gum_arm_writer_reset blank_writer .GUM_OS_LINUX 4096) 4 9
      hundred_loads).2.2 (by decide) (by decide)).2.2.2⟩

/-- C5, the claim as stated fails: with the program counter at 4096 and the
target 2^32 bytes beyond `pc + 8`, the distance as a mathematical integer is
2^32, outside the signed 26-bit range, yet `gum_arm_writer_put_b_imm` returns
TRUE (the distance is held in a `gint32`, where it is 0). -/
theorem C5_wrapped_distance_counterexample :
    (gum_arm_writer_reset blank_writer .GUM_OS_LINUX 4096).pc = 4096 ∧
    (gum_arm_writer_put_b_imm false (gum_arm_writer_reset blank_writer .GUM_OS_LINUX 4096)
      (4096 + 8 + 4294967296)).1 = true ∧
    ¬ (-33554432 ≤ ((4096 + 8 + 4294967296 : Nat) : Int) - ((4096 : Int) + 8) ∧
       ((4096 + 8 + 4294967296 : Nat) : Int) - ((4096 : Int) + 8) ≤ 33554431) := by
  refine ⟨by decide, by decide, by decide⟩

/-- C5, as amended: for every program counter and target address,
`gum_arm_writer_put_b_imm` returns FALSE exactly when the byte distance
`target - (program_counter + 8)`, reduced modulo 2^32 to a signed 32-bit value
(the `gint32` that holds it), does not fit the signed 26-bit range
[-2^25, 2^25 - 1], and TRUE otherwise. -/
theorem C5_branch_range_on_gint32_distance (be : Bool) (s : GumArmWriter) (target : Nat) :
    (gum_arm_writer_put_b_imm be s target).1 = false ↔
      ¬ (-33554432 ≤ ((target : Int) - ((s.pc : Int) + 8) + 2147483648) % 4294967296 - 2147483648 ∧
         ((target : Int) - ((s.pc : Int) + 8) + 2147483648) % 4294967296 - 2147483648 ≤ 33554431) := by
  rw [put_b_imm_result, put_b_imm_distance]
  unfold GUM_IS_WITHIN_INT26_RANGE
  simp

/-- C6: when the byte distance `target - (program_counter + 8)` is exactly an
edge of the signed 26-bit range (2^25 - 1 forward, -2^25 backward)
`gum_arm_writer_put_b_imm` returns TRUE, and when it is one byte beyond
(2^25 forward, -2^25 - 1 backward) it returns FALSE. -/
theorem C6_branch_range_edges (be : Bool) (s : GumArmWriter) (target : Nat) :
    ((target : Int) - ((s.pc : Int) + 8) = 33554431 →
      (gum_arm_writer_put_b_imm be s target).1 = true) ∧
    ((target : Int) - ((s.pc : Int) + 8) = -33554432 →
      (gum_arm_writer_put_b_imm be s target).1 = true) ∧
    ((target : Int) - ((s.pc : Int) + 8) = 33554432 →
      (gum_arm_writer_put_b_imm be s target).1 = false) ∧
    ((target : Int) - ((s.pc : Int) + 8) = -33554433 →
      (gum_arm_writer_put_b_imm be s target).1 = false) := by
  rw [put_b_imm_result, put_b_imm_distance]
  unfold GUM_IS_WITHIN_INT26_RANGE
  refine ⟨?_, ?_, ?_, ?_⟩ <;> intro h <;> rw [h] <;> decide

theorem C6_branch_range_edges_witness :
    (gum_arm_writer_put_b_imm false (gum_arm_writer_reset blank_writer .GUM_OS_LINUX 67108864)
      100663303).1 = true ∧
    (gum_arm_writer_put_b_imm false (gum_arm_writer_reset blank_writer .GUM_OS_LINUX 67108864)
      33554440).1 = true ∧
    (gum_arm_writer_put_b_imm false (gum_arm_writer_reset blank_writer .GUM_OS_LINUX 67108864)
      100663304).1 = false ∧
    (gum_arm_writer_put_b_imm false (gum_arm_writer_reset blank_writer .GUM_OS_LINUX 67108864)
      33554439).1 = false :=
  ⟨(C6_branch_range_edges false (gum_arm_writer_reset blank_writer .GUM_OS_LINUX 67108864)
      100663303).1 (by decide),
    (C6_branch_range_edges false (gum_arm_writer_reset blank_writer .GUM_OS_LINUX 67108864)
      33554440).2.1 (by decide),
    (C6_branch_range_edges false (gum_arm_writer_reset blank_writer .GUM_OS_LINUX 67108864)
      100663304).2.2.1 (by decide),
    (C6_branch_range_edges false (gum_arm_writer_reset blank_writer .GUM_OS_LINUX 67108864)
      33554439).2.2.2 (by decide)⟩

/-- C7: when `gum_arm_writer_put_b_imm` returns TRUE and the byte distance
`target - (program_counter + 8)` is a multiple of 4, exactly one word is
emitted (the cursor and the program counter advance by 4, the pending list and
every byte outside the word are unchanged), its top 8 bits are 0xEA, and
decoding it as the architecture does (sign-extend the low 24 bits, multiply by
4, add `program_counter + 8`) gives the target address modulo 2^32. -/
theorem C7_branch_word_decodes_to_target (be : Bool) (s : GumArmWriter) (target : Nat)
    (hok : (gum_arm_writer_put_b_imm be s target).1 = true)
    (h4 : ((target : Int) - ((s.pc : Int) + 8)) % 4 = 0) :
    (gum_arm_writer_put_b_imm be s target).2.code = s.code + 4 ∧
    (gum_arm_writer_put_b_imm be s target).2.pc = (s.pc + 4) % 2 ^ 64 ∧
    (gum_arm_writer_put_b_imm be s target).2.literal_refs = s.literal_refs ∧
    (∀ x, x < s.code ∨ s.code + 4 ≤ x →
      (gum_arm_writer_put_b_imm be s target).2.mem x = s.mem x) ∧
    GUINT32_FROM_LE be (load32 be (gum_arm_writer_put_b_imm be s target).2.mem s.code)
      / 2 ^ 24 = 0xEA ∧
    (b_target s.pc (GUINT32_FROM_LE be
      (load32 be (gum_arm_writer_put_b_imm be s target).2.mem s.code)) - (target : Int))
        % 4294967296 = 0 := by
  have hr := (put_b_imm_true_iff be s target).1 hok
  have hd4 : (((target : Int) - ((s.pc : Int) + 8) + 2147483648) % 4294967296 - 2147483648) % 4
      = 0 := by omega
  rw [put_b_imm_ok be s target hok, tdiv_four_of_mod _ hd4, b_word_eq]
  have hlt : 0xea000000 + (((((target : Int) - ((s.pc : Int) + 8) + 2147483648) % 4294967296
      - 2147483648) / 4 % 4294967296).toNat) % 2 ^ 24 < 2 ^ 32 := by omega
  refine ⟨rfl, rfl, rfl, ?_, ?_, ?_⟩
  · intro x hx
    exact store32_apply_out be _ _ _ x hx
  · show GUINT32_FROM_LE be (load32 be (store32 be s.mem s.code (GUINT32_TO_LE be _)) s.code)
      / 2 ^ 24 = 0xEA
    rw [load32_store32_same be _ _ _ (to_le_lt be _ hlt), from_le_to_le be _ hlt]
    omega
  · show (b_target s.pc (GUINT32_FROM_LE be (load32 be
      (store32 be s.mem s.code (GUINT32_TO_LE be _)) s.code)) - (target : Int)) % 4294967296 = 0
    rw [load32_store32_same be _ _ _ (to_le_lt be _ hlt), from_le_to_le be _ hlt]
    unfold b_target b_word_offset
    split <;> omega

theorem C7_branch_word_decodes_to_target_witness :
    GUINT32_FROM_LE false (load32 false (gum_arm_writer_put_b_imm false
      (gum_arm_writer_reset blank_writer .GUM_OS_LINUX 4096) 4096).2.mem
      (gum_arm_writer_reset blank_writer .GUM_OS_LINUX 4096).code) / 2 ^ 24 = 0xEA ∧
    (b_target (gum_arm_writer_reset blank_writer .GUM_OS_LINUX 4096).pc
      (GUINT32_FROM_LE false (load32 false (gum_arm_writer_put_b_imm false
        (gum_arm_writer_reset blank_writer .GUM_OS_LINUX 4096) 4096).2.mem
        (gum_arm_writer_reset blank_writer .GUM_OS_LINUX 4096).code)) - ((4096 : Nat) : Int))
      % 4294967296 = 0 :=
  (C7_branch_word_decodes_to_target false (gum_arm_writer_reset blank_writer .GUM_OS_LINUX 4096)
    4096 (by decide) (by decide)).2.2.2.2

/-- C8: whenever `gum_arm_writer_put_b_imm`, `gum_arm_writer_put_ldr_reg_u32`,
`gum_arm_writer_put_ldr_reg_address` or `gum_arm_writer_put_bytes` returns
FALSE, the writer state after the call (cursor, program counter, pending
literal list, every byte of the memory) is the state before it. -/
theorem C8_failed_builders_emit_nothing (be : Bool) (s : GumArmWriter) (target : Nat)
    (reg : arm_reg) (val address : Nat) (data : List Nat) :
    ((gum_arm_writer_put_b_imm be s target).1 = false →
      (gum_arm_writer_put_b_imm be s target).2 = s) ∧
    ((gum_arm_writer_put_ldr_reg_u32 be s reg val).1 = false →
      (gum_arm_writer_put_ldr_reg_u32 be s reg val).2 = s) ∧
    ((gum_arm_writer_put_ldr_reg_address be s reg address).1 = false →
      (gum_arm_writer_put_ldr_reg_address be s reg address).2 = s) ∧
    ((gum_arm_writer_put_bytes s data).1 = false →
      (gum_arm_writer_put_bytes s data).2 = s) := by
  have hldr : ∀ v : Nat, (gum_arm_writer_put_ldr_reg_u32 be s reg v).1 = false →
      (gum_arm_writer_put_ldr_reg_u32 be s reg v).2 = s := by
    intro v h
    by_cases hfull : s.literal_refs.length = GUM_MAX_LITERAL_REF_COUNT
    · rw [put_ldr_reg_u32_full be s reg v hfull]
    · rw [put_ldr_reg_u32_ok be s reg v hfull] at h
      simp at h
  refine ⟨?_, hldr val, hldr (address % 2 ^ 32), ?_⟩
  · intro h
    rw [put_b_imm_fail be s target h]
  · intro h
    unfold gum_arm_writer_put_bytes at h ⊢
    simp only at h ⊢
    split
    · rfl
    · rename_i hn
      rw [if_neg hn] at h
      simp at h

set_option maxRecDepth 8000 in
theorem C8_failed_builders_emit_nothing_witness :
    (gum_arm_writer_put_b_imm false (gum_arm_writer_reset blank_writer .GUM_OS_LINUX 4096)
      134217728).2 = gum_arm_writer_reset blank_writer .GUM_OS_LINUX 4096 ∧
    (gum_arm_writer_put_ldr_reg_u32 false (put_ldr_reg_u32_seq false
      (gum_arm_writer_reset blank_writer .GUM_OS_LINUX 4096) hundred_loads).2 4 9).2
      = (put_ldr_reg_u32_seq false
          (gum_arm_writer_reset blank_writer .GUM_OS_LINUX 4096) hundred_loads).2 ∧
    (gum_arm_writer_put_ldr_reg_address false (put_ldr_reg_u32_seq false
      (gum_arm_writer_reset blank_writer .GUM_OS_LINUX 4096) hundred_loads).2 4 9).2
      = (put_ldr_reg_u32_seq false
          (gum_arm_writer_reset blank_writer .GUM_OS_LINUX 4096) hundred_loads).2 ∧
    (gum_arm_writer_put_bytes (gum_arm_writer_reset blank_writer .GUM_OS_LINUX 4096)
      [1, 2, 3]).2 = gum_arm_writer_reset blank_writer .GUM_OS_LINUX 4096 :=
  ⟨(C8_failed_builders_emit_nothing false (gum_arm_writer_reset blank_writer .GUM_OS_LINUX 4096)
      134217728 4 9 9 [1, 2, 3]).1 (by decide),
    (C8_failed_builders_emit_nothing false (put_ldr_reg_u32_seq false
      (gum_arm_writer_reset blank_writer .GUM_OS_LINUX 4096) hundred_loads).2
      134217728 4 9 9 [1, 2, 3]).2.1 (by decide),
    (C8_failed_builders_emit_nothing false (put_ldr_reg_u32_seq false
      (gum_arm_writer_reset blank_writer .GUM_OS_LINUX 4096) hundred_loads).2
      134217728 4 9 9 [1, 2, 3]).2.2.1 (by decide),
    (C8_failed_builders_emit_nothing false (gum_arm_writer_reset blank_writer .GUM_OS_LINUX 4096)
      134217728 4 9 9 [1, 2, 3]).2.2.2 (by decide)⟩

/-- C9: for a writer reset at a word-aligned address `A`, the calls "load r0
with 0xDEADBEEF", "load r1 with 0xDEADBEEF", "branch to `A`" and the flush all
return TRUE; the cursor is `A + 12` before the flush and `A + 16` after it, so
the pool is the single word at `A + 12`, right after the branch at `A + 8`, and
it holds 0xDEADBEEF; both load words, at `A` and `A + 4`, decode by the
PC-relative formula to address `A + 12`, with destination register fields 0
and 1.  Instruction words are read through `GUINT32_FROM_LE` and the pool word
as the writer itself reads it, in host order. -/
theorem C9_scenario_loads_share_one_pool_word (be : Bool) (writer : GumArmWriter) (os : GumOS)
    (A : Nat) (hA : A % 4 = 0) :
    (gum_arm_writer_put_ldr_reg_u32 be (gum_arm_writer_reset writer os A) 0 0xDEADBEEF).1
      = true ∧
    (gum_arm_writer_put_ldr_reg_u32 be
      (gum_arm_writer_put_ldr_reg_u32 be (gum_arm_writer_reset writer os A) 0 0xDEADBEEF).2
      1 0xDEADBEEF).1 = true ∧
    (gum_arm_writer_put_b_imm be (scenario_loads be writer os A) A).1 = true ∧
    (gum_arm_writer_flush be (scenario_branch be writer os A)).1 = true ∧
    (scenario_branch be writer os A).code = A + 12 ∧
    (scenario_flushed be writer os A).code = A + 16 ∧
    (scenario_flushed be writer os A).code % 4 = 0 ∧
    GUINT32_FROM_LE be (load32 be (scenario_flushed be writer os A).mem (A + 8)) / 2 ^ 24
      = 0xEA ∧
    load32 be (scenario_flushed be writer os A).mem (A + 12) = 0xDEADBEEF ∧
    ldr_literal_address A
      (GUINT32_FROM_LE be (load32 be (scenario_flushed be writer os A).mem A))
      = (A : Int) + 12 ∧
    ldr_literal_address (A + 4)
      (GUINT32_FROM_LE be (load32 be (scenario_flushed be writer os A).mem (A + 4)))
      = (A : Int) + 12 ∧
    GUINT32_FROM_LE be (load32 be (scenario_flushed be writer os A).mem A) / 4096 % 16 = 0 ∧
    GUINT32_FROM_LE be (load32 be (scenario_flushed be writer os A).mem (A + 4)) / 4096 % 16
      = 1 := by
  obtain ⟨f1, f2, f3, f4, f5, f6⟩ := scenario_flush_spec be writer os A
  obtain ⟨d0, d1⟩ := ldr_literal_address_words A
  refine ⟨?_, ?_, ?_, f1, ?_, f2, ?_, ?_, f3, ?_, ?_, ?_, ?_⟩
  · rw [first_load_call]
  · rw [second_load_call]
  · unfold scenario_loads; rw [two_loads_branch_call]
  · rw [scenario_branch_eq]
  · rw [f2]; omega
  · rw [f6]; decide
  · rw [f4]; exact d0
  · rw [f5]; exact d1
  · rw [f4]
  · rw [f5]

theorem C9_scenario_loads_share_one_pool_word_witness :
    (scenario_flushed false blank_writer .GUM_OS_LINUX 4096).code = 4096 + 16 ∧
    load32 false (scenario_flushed false blank_writer .GUM_OS_LINUX 4096).mem (4096 + 12)
      = 0xDEADBEEF :=
  ⟨(C9_scenario_loads_share_one_pool_word false blank_writer .GUM_OS_LINUX 4096
      (by decide)).2.2.2.2.2.1,
    (C9_scenario_loads_share_one_pool_word false blank_writer .GUM_OS_LINUX 4096
      (by decide)).2.2.2.2.2.2.2.2.1⟩

/-- C10, the claim as stated fails: with the writer reset at 4096 on a
little-endian host, after the two loads the branch to 4096 is emitted at 4104
as 0xEAFFFFFC, whose 24-bit signed offset field is -4 words, not -3. -/
theorem C10_branch_offset_counterexample :
    (gum_arm_writer_put_b_imm false (two_loads false blank_writer .GUM_OS_LINUX 4096
      0 0xDEADBEEF 1 0xDEADBEEF) 4096).1 = true ∧
    (two_loads false blank_writer .GUM_OS_LINUX 4096 0 0xDEADBEEF 1 0xDEADBEEF).code
      = 4096 + 8 ∧
    GUINT32_FROM_LE false (load32 false (gum_arm_writer_put_b_imm false
      (two_loads false blank_writer .GUM_OS_LINUX 4096 0 0xDEADBEEF 1 0xDEADBEEF) 4096).2.mem
      (4096 + 8)) = 0xEAFFFFFC ∧
    ¬ (b_word_offset (GUINT32_FROM_LE false (load32 false (gum_arm_writer_put_b_imm false
      (two_loads false blank_writer .GUM_OS_LINUX 4096 0 0xDEADBEEF 1 0xDEADBEEF) 4096).2.mem
      (4096 + 8))) = -3) := by
  refine ⟨by decide, by decide, by decide, by decide⟩

/-- C10, as amended: for a writer reset at any address `A`, after two calls of
`gum_arm_writer_put_ldr_reg_u32` (any registers and values) the call
`gum_arm_writer_put_b_imm (A)` returns TRUE and the branch word it emits at
`A + 8` is 0xEAFFFFFC: its 24-bit signed offset field encodes a backward word
offset of -4 words, and it decodes to `A`. -/
theorem C10_scenario_branch_offset (be : Bool) (writer : GumArmWriter) (os : GumOS) (A : Nat)
    (reg1 : arm_reg) (val1 : Nat) (reg2 : arm_reg) (val2 : Nat) :
    (gum_arm_writer_put_b_imm be (two_loads be writer os A reg1 val1 reg2 val2) A).1 = true ∧
    (two_loads be writer os A reg1 val1 reg2 val2).code = A + 8 ∧
    GUINT32_FROM_LE be (load32 be
      (gum_arm_writer_put_b_imm be (two_loads be writer os A reg1 val1 reg2 val2) A).2.mem
      (A + 8)) = 0xEAFFFFFC ∧
    b_word_offset (GUINT32_FROM_LE be (load32 be
      (gum_arm_writer_put_b_imm be (two_loads be writer os A reg1 val1 reg2 val2) A).2.mem
      (A + 8))) = -4 ∧
    b_target (A + 8) (GUINT32_FROM_LE be (load32 be
      (gum_arm_writer_put_b_imm be (two_loads be writer os A reg1 val1 reg2 val2) A).2.mem
      (A + 8))) = (A : Int) := by
  have hw := two_loads_branch_word be writer os A reg1 val1 reg2 val2
  have ho : b_word_offset 0xeafffffc = -4 := by decide
  refine ⟨?_, ?_, hw, ?_, ?_⟩
  · rw [two_loads_branch_call]
  · rw [two_loads_eq]
  · rw [hw]; exact ho
  · rw [hw]; unfold b_target; rw [ho]; push_cast; omega

/-- C11, the claim as stated fails: on a big-endian host (`GUINT32_TO_LE` is
a byte swap), after a reset at 4096, "load r0 with 0xDEADBEEF" and a flush, the
load word 0xE51F0004 lies at 4096 as its little-endian bytes 04 00 1F E5, but
the pool word 0xDEADBEEF lies at 4100 as DE AD BE EF, the byte order of the
host, not the little-endian EF BE AD DE that the same calls give on a
little-endian host. -/
theorem C11_big_endian_pool_word_counterexample :
    GUINT32_FROM_LE true (load32 true big_endian_flushed.mem 4096) = 0xE51F0004 ∧
    (big_endian_flushed.mem 4096 = le_byte 0xE51F0004 0 ∧
     big_endian_flushed.mem 4097 = le_byte 0xE51F0004 1 ∧
     big_endian_flushed.mem 4098 = le_byte 0xE51F0004 2 ∧
     big_endian_flushed.mem 4099 = le_byte 0xE51F0004 3) ∧
    load32 true big_endian_flushed.mem 4100 = 0xDEADBEEF ∧
    big_endian_flushed.code = 4104 ∧
    (big_endian_flushed.mem 4100 = 0xDE ∧ big_endian_flushed.mem 4101 = 0xAD ∧
     big_endian_flushed.mem 4102 = 0xBE ∧ big_endian_flushed.mem 4103 = 0xEF) ∧
    (le_byte 0xDEADBEEF 0 = 0xEF ∧ le_byte 0xDEADBEEF 1 = 0xBE ∧
     le_byte 0xDEADBEEF 2 = 0xAD ∧ le_byte 0xDEADBEEF 3 = 0xDE) ∧
    ¬ (big_endian_flushed.mem 4100 = le_byte 0xDEADBEEF 0) ∧
    (little_endian_flushed.mem 4100 = le_byte 0xDEADBEEF 0 ∧
     little_endian_flushed.mem 4101 = le_byte 0xDEADBEEF 1 ∧
     little_endian_flushed.mem 4102 = le_byte 0xDEADBEEF 2 ∧
     little_endian_flushed.mem 4103 = le_byte 0xDEADBEEF 3) := by
  refine ⟨by decide, ⟨by decide, by decide, by decide, by decide⟩, by decide, by decide,
    ⟨by decide, by decide, by decide, by decide⟩, ⟨by decide, by decide, by decide, by decide⟩,
    by decide, ⟨by decide, by decide, by decide, by decide⟩⟩

/-- C11, as amended: on either host byte order, in every reachable writer
state whose memory holds bytes, the instruction word written by
`gum_arm_writer_put_instruction` and the load words re-written by
`gum_arm_writer_flush` lie in memory as the little-endian byte sequence of
their value, and the pool data words appended by the flush lie in memory in the
byte order of the host: little-endian on a little-endian host, big-endian on a
big-endian host. -/
theorem C11_instruction_words_le_pool_words_host_order (be : Bool) (s : GumArmWriter)
    (hs : Reachable be s) (hm : ∀ x, s.mem x < 256) :
    (∀ insn, insn < 2 ^ 32 → ∀ j, j < 4 →
      (gum_arm_writer_put_instruction be s insn).mem (s.code + j) = le_byte insn j) ∧
    (∀ r ∈ s.literal_refs, ∀ j, j < 4 →
      (gum_arm_writer_flush be s).2.mem (r.insn + j)
        = le_byte (patch_ldr (GUINT32_FROM_LE be (load32 be s.mem r.insn))
            ((((s.code + 4 * (first_occurrences
              (s.literal_refs.map (fun r => r.val))).indexOf r.val : Nat) : Int)
              - ((r.insn : Int) + 8)) / 4)) j) ∧
    (∀ k (hk : k < (first_occurrences (s.literal_refs.map (fun r => r.val))).length),
      ∀ j, j < 4 →
        (gum_arm_writer_flush be s).2.mem (s.code + 4 * k + j)
          = host_byte be (first_occurrences (s.literal_refs.map (fun r => r.val)))[k] j) ∧
    (∀ v j, host_byte false v j = le_byte v j) ∧
    (∀ v j, host_byte true v j = le_byte v (3 - j)) := by
  have hinv := reachable_inv be s hs
  have hb := flush_bytes_lt be s hm
  refine ⟨fun insn hi j hj => put_instruction_bytes_le be s insn hi j hj, ?_, ?_,
    fun v j => by simp [host_byte, le_byte], fun v j => by simp [host_byte, le_byte]⟩
  · intro r hr j hj
    have hne : s.literal_refs ≠ [] := List.ne_nil_of_mem hr
    obtain ⟨-, -, -, -, -, -, -, f8, -⟩ := flush_spec be s hne
      (fun r hr => ⟨(hinv.refs r hr).2.1, (hinv.refs r hr).2.2.1⟩) hinv.sorted
    rw [bytes_of_load32 be _ r.insn _ (fun i _ => hb _) (f8 r hr) j hj]
    exact host_byte_to_le be _ j (patch_ldr_lt _ _) hj
  · intro k hk j hj
    have hne : s.literal_refs ≠ [] := by
      intro h
      rw [h] at hk
      simp [first_occurrences] at hk
    obtain ⟨-, -, -, -, -, -, f7, -, -⟩ := flush_spec be s hne
      (fun r hr => ⟨(hinv.refs r hr).2.1, (hinv.refs r hr).2.2.1⟩) hinv.sorted
    exact bytes_of_load32 be _ (s.code + 4 * k) _ (fun i _ => hb _) (f7 k hk) j hj

theorem C11_instruction_words_le_pool_words_host_order_witness :
    (gum_arm_writer_flush true big_endian_load_writer).2.mem
        (big_endian_load_writer.code + 4 * 0 + 0) = host_byte true 0xDEADBEEF 0 ∧
    (gum_arm_writer_put_instruction true big_endian_load_writer 0xe1a00000).mem
        (big_endian_load_writer.code + 0) = le_byte 0xe1a00000 0 :=
  ⟨(C11_instruction_words_le_pool_words_host_order true big_endian_load_writer
      big_endian_load_writer_reachable big_endian_load_writer_bytes).2.2.1 0 (by decide)
      0 (by decide),
    (C11_instruction_words_le_pool_words_host_order true big_endian_load_writer
      big_endian_load_writer_reachable big_endian_load_writer_bytes).1 0xe1a00000 (by decide)
      0 (by decide)⟩

/-- C12: in every writer state with no pending literal reference,
`gum_arm_writer_flush` returns TRUE and returns the state as it was (cursor,
program counter, base, pending list and every byte of the memory); and in
every state whatsoever a second flush right after a flush returns TRUE and
changes nothing, so flushing twice gives the same state as flushing once. -/
theorem C12_empty_flush_is_identity (be : Bool) (s : GumArmWriter) :
    (s.literal_refs = [] → gum_arm_writer_flush be s = (true, s)) ∧
    gum_arm_writer_flush be (gum_arm_writer_flush be s).2
      = (true, (gum_arm_writer_flush be s).2) ∧
    (gum_arm_writer_flush be (gum_arm_writer_flush be s).2).2 = (gum_arm_writer_flush be s).2 := by
  have h2 := flush_empty be (gum_arm_writer_flush be s).2 (flush_refs_nil be s)
  exact ⟨flush_empty be s, h2, by rw [h2]⟩

theorem C12_empty_flush_is_identity_witness :
    gum_arm_writer_flush false (gum_arm_writer_reset blank_writer .GUM_OS_LINUX 4096)
      = (true, gum_arm_writer_reset blank_writer .GUM_OS_LINUX 4096) :=
  (C12_empty_flush_is_identity false (gum_arm_writer_reset blank_writer .GUM_OS_LINUX 4096)).1
    (by decide)

/-- C13: when a batch of constant loads is emitted and flushed and a second
batch is then emitted and flushed, the second flush puts its pool at its own
pre-flush cursor: the words from there hold the distinct values of the second
batch, in order of first occurrence, whether or not they are in the first
pool, the cursor advances by 4 bytes per distinct value of the second batch,
and every byte written before the second batch (the instruction words and the
pool words of the first batch) is unchanged. -/
theorem C13_pool_window_per_batch (be : Bool) (s : GumArmWriter)
    (calls1 calls2 : List (arm_reg × Nat)) (h0 : s.literal_refs = [])
    (h1 : 1 ≤ calls1.length ∧ calls1.length ≤ 100) (h2 : 1 ≤ calls2.length ∧ calls2.length ≤ 100)
    (hv1 : ∀ c ∈ calls1, c.2 < 2 ^ 32) (hv2 : ∀ c ∈ calls2, c.2 < 2 ^ 32) :
    (put_ldr_reg_u32_seq be (batch_flushed be s calls1) calls2).2.code
      = (batch_flushed be s calls1).code + 4 * calls2.length ∧
    (∀ j (hj : j < (first_occurrences (calls2.map (fun c => c.2))).length),
      load32 be (batch_flushed be (batch_flushed be s calls1) calls2).mem
        ((put_ldr_reg_u32_seq be (batch_flushed be s calls1) calls2).2.code + 4 * j)
        = (first_occurrences (calls2.map (fun c => c.2)))[j]) ∧
    (batch_flushed be (batch_flushed be s calls1) calls2).code
      = (put_ldr_reg_u32_seq be (batch_flushed be s calls1) calls2).2.code
        + 4 * (first_occurrences (calls2.map (fun c => c.2))).length ∧
    (∀ x, x < (batch_flushed be s calls1).code →
      (batch_flushed be (batch_flushed be s calls1) calls2).mem x
        = (batch_flushed be s calls1).mem x) ∧
    (∀ a, a + 4 ≤ (batch_flushed be s calls1).code →
      load32 be (batch_flushed be (batch_flushed be s calls1) calls2).mem a
        = load32 be (batch_flushed be s calls1).mem a) := by
  obtain ⟨-, a2, -, -, -⟩ := batch_flushed_spec be s calls1 h0 h1.1 h1.2 hv1
  obtain ⟨b1, -, b3, b4, b5⟩ := batch_flushed_spec be (batch_flushed be s calls1) calls2 a2
    h2.1 h2.2 hv2
  refine ⟨b1, b4, b3, b5, ?_⟩
  intro a ha
  apply load32_congr
  intro j hj
  exact b5 _ (by omega)

theorem C13_pool_window_per_batch_witness :
    (batch_flushed false (batch_flushed false
      (gum_arm_writer_reset blank_writer .GUM_OS_LINUX 4096) three_loads) three_loads).code
      = (put_ldr_reg_u32_seq false (batch_flushed false
          (gum_arm_writer_reset blank_writer .GUM_OS_LINUX 4096) three_loads) three_loads).2.code
        + 4 * (first_occurrences (three_loads.map (fun c => c.2))).length :=
  (C13_pool_window_per_batch false (gum_arm_writer_reset blank_writer .GUM_OS_LINUX 4096)
    three_loads three_loads (by decide) (by decide) (by decide) (by decide) (by decide)).2.2.1

/-- C14: `gum_arm_writer_put_bytes (data, n)` returns FALSE exactly when `n`
is not a multiple of 4; when it returns TRUE the `n` bytes from the old cursor
are `data[0..n)`, the cursor has advanced by `n` bytes and so has the program
counter (a `guint64`, so modulo 2^64), and the pending list, base, target OS
and every other byte of the memory are unchanged. -/
theorem C14_put_bytes (s : GumArmWriter) (data : List Nat) :
    ((gum_arm_writer_put_bytes s data).1 = false ↔ data.length % 4 ≠ 0) ∧
    ((gum_arm_writer_put_bytes s data).1 = true →
      (∀ j (hj : j < data.length), (gum_arm_writer_put_bytes s data).2.mem (s.code + j) = data[j]) ∧
      (gum_arm_writer_put_bytes s data).2.code = s.code + data.length ∧
      (gum_arm_writer_put_bytes s data).2.pc = (s.pc + data.length) % 2 ^ 64 ∧
      (gum_arm_writer_put_bytes s data).2.literal_refs = s.literal_refs ∧
      (gum_arm_writer_put_bytes s data).2.base = s.base ∧
      (gum_arm_writer_put_bytes s data).2.target_os = s.target_os ∧
      (∀ x, x < s.code ∨ s.code + data.length ≤ x →
        (gum_arm_writer_put_bytes s data).2.mem x = s.mem x)) := by
  by_cases h : data.length % 4 ≠ 0
  · have e : gum_arm_writer_put_bytes s data = (false, s) := by
      simp only [gum_arm_writer_put_bytes, if_pos h]
    rw [e]
    exact ⟨by simp [h], by simp⟩
  · have e : gum_arm_writer_put_bytes s data = (true,
        { s with
          mem := gum_memcpy s.mem s.code data
          code := s.code + 4 * (data.length / 4)
          pc := (s.pc + data.length) % 2 ^ 64 }) := by
      simp only [gum_arm_writer_put_bytes, if_neg h]
    rw [e]
    refine ⟨by simp [h], fun _ => ⟨?_, ?_, rfl, rfl, rfl, rfl, ?_⟩⟩
    · intro j hj
      exact gum_memcpy_apply_in s.mem s.code data j hj
    · show s.code + 4 * (data.length / 4) = s.code + data.length
      omega
    · intro x hx
      exact gum_memcpy_apply_out s.mem s.code data x hx

theorem C14_put_bytes_witness :
    (gum_arm_writer_put_bytes (gum_arm_writer_reset blank_writer .GUM_OS_LINUX 4096)
      [1, 2, 3, 4]).2.code = 4096 + 4 :=
  ((C14_put_bytes (gum_arm_writer_reset blank_writer .GUM_OS_LINUX 4096) [1, 2, 3, 4]).2
    (by decide)).2.1

/-- C15: for all destination and source registers (index 0..15) and every
immediate, `gum_arm_writer_put_add_reg_reg_imm` emits exactly one word, equal
to `0xE2800000 | rd << 12 | rs << 16 | (imm_val mod 4096)`, and
`gum_arm_writer_put_ldr_reg_reg_imm` exactly one word, equal to
`0xE5900000 | rd << 12 | rs << 16 | (imm_val mod 4096)`: the low 12 bits are
`imm_val mod 4096`, bits 12..15 are `rd`, bits 16..19 are `rs`, immediates that
agree modulo 4096 give the same state, and both builders are total (they
return no status). -/
theorem C15_reg_reg_imm_words (be : Bool) (s : GumArmWriter) (rd rs : arm_reg)
    (imm_val imm_val2 : Nat) :
    (GUINT32_FROM_LE be (load32 be
        (gum_arm_writer_put_add_reg_reg_imm be s rd rs imm_val).mem s.code)
      = 0xE2800000 ||| rd.val <<< 12 ||| rs.val <<< 16 ||| (imm_val % 4096) ∧
     (gum_arm_writer_put_add_reg_reg_imm be s rd rs imm_val).code = s.code + 4 ∧
     (gum_arm_writer_put_add_reg_reg_imm be s rd rs imm_val).pc = (s.pc + 4) % 2 ^ 64 ∧
     (gum_arm_writer_put_add_reg_reg_imm be s rd rs imm_val).literal_refs = s.literal_refs ∧
     (∀ x, x < s.code ∨ s.code + 4 ≤ x →
       (gum_arm_writer_put_add_reg_reg_imm be s rd rs imm_val).mem x = s.mem x) ∧
     (0xE2800000 ||| rd.val <<< 12 ||| rs.val <<< 16 ||| (imm_val % 4096)) % 4096
       = imm_val % 4096 ∧
     (0xE2800000 ||| rd.val <<< 12 ||| rs.val <<< 16 ||| (imm_val % 4096)) / 4096 % 16
       = rd.val ∧
     (0xE2800000 ||| rd.val <<< 12 ||| rs.val <<< 16 ||| (imm_val % 4096)) / 65536 % 16
       = rs.val ∧
     (imm_val % 4096 = imm_val2 % 4096 →
       gum_arm_writer_put_add_reg_reg_imm be s rd rs imm_val
         = gum_arm_writer_put_add_reg_reg_imm be s rd rs imm_val2)) ∧
    (GUINT32_FROM_LE be (load32 be
        (gum_arm_writer_put_ldr_reg_reg_imm be s rd rs imm_val).mem s.code)
      = 0xE5900000 ||| rd.val <<< 12 ||| rs.val <<< 16 ||| (imm_val % 4096) ∧
     (gum_arm_writer_put_ldr_reg_reg_imm be s rd rs imm_val).code = s.code + 4 ∧
     (gum_arm_writer_put_ldr_reg_reg_imm be s rd rs imm_val).pc = (s.pc + 4) % 2 ^ 64 ∧
     (gum_arm_writer_put_ldr_reg_reg_imm be s rd rs imm_val).literal_refs = s.literal_refs ∧
     (∀ x, x < s.code ∨ s.code + 4 ≤ x →
       (gum_arm_writer_put_ldr_reg_reg_imm be s rd rs imm_val).mem x = s.mem x) ∧
     (0xE5900000 ||| rd.val <<< 12 ||| rs.val <<< 16 ||| (imm_val % 4096)) % 4096
       = imm_val % 4096 ∧
     (0xE5900000 ||| rd.val <<< 12 ||| rs.val <<< 16 ||| (imm_val % 4096)) / 4096 % 16
       = rd.val ∧
     (0xE5900000 ||| rd.val <<< 12 ||| rs.val <<< 16 ||| (imm_val % 4096)) / 65536 % 16
       = rs.val ∧
     (imm_val % 4096 = imm_val2 % 4096 →
       gum_arm_writer_put_ldr_reg_reg_imm be s rd rs imm_val
         = gum_arm_writer_put_ldr_reg_reg_imm be s rd rs imm_val2)) := by
  have hrd := rd.isLt
  have hrs := rs.isLt
  have hm : imm_val % 4096 < 2 ^ 12 := Nat.mod_lt _ (by norm_num)
  have ea : 0xE2800000 ||| rd.val <<< 12 ||| rs.val <<< 16 ||| (imm_val % 4096)
      = 2 ^ 12 * (0xe2800 + rd.val + 16 * rs.val) + imm_val % 4096 := by
    rw [add_word_eq, ← Nat.mul_add_lt_is_or hm]
  have el : 0xE5900000 ||| rd.val <<< 12 ||| rs.val <<< 16 ||| (imm_val % 4096)
      = 2 ^ 12 * (0xe5900 + rd.val + 16 * rs.val) + imm_val % 4096 := by
    rw [ldr_imm_word_eq, ← Nat.mul_add_lt_is_or hm]
  have da : ∀ i : Nat, gum_arm_writer_put_add_reg_reg_imm be s rd rs i
      = gum_arm_writer_put_instruction be s
          (0xE2800000 ||| rd.val <<< 12 ||| rs.val <<< 16 ||| (i % 4096)) := by
    intro i
    simp only [gum_arm_writer_put_add_reg_reg_imm, gum_arm_reg_describe, and_int12_mask]
  have dl : ∀ i : Nat, gum_arm_writer_put_ldr_reg_reg_imm be s rd rs i
      = gum_arm_writer_put_instruction be s
          (0xE5900000 ||| rd.val <<< 12 ||| rs.val <<< 16 ||| (i % 4096)) := by
    intro i
    simp only [gum_arm_writer_put_ldr_reg_reg_imm, gum_arm_reg_describe, and_int12_mask]
  refine ⟨⟨?_, ?_, ?_, ?_, ?_, ?_, ?_, ?_, ?_⟩, ⟨?_, ?_, ?_, ?_, ?_, ?_, ?_, ?_, ?_⟩⟩
  · rw [da]; exact put_instruction_word be s _ (by rw [ea]; omega)
  · rw [da]; rfl
  · rw [da]; rfl
  · rw [da]; rfl
  · rw [da]; exact put_instruction_frame be s _
  · rw [ea]; omega
  · rw [ea]; omega
  · rw [ea]; omega
  · intro h; rw [da, da, h]
  · rw [dl]; exact put_instruction_word be s _ (by rw [el]; omega)
  · rw [dl]; rfl
  · rw [dl]; rfl
  · rw [dl]; rfl
  · rw [dl]; exact put_instruction_frame be s _
  · rw [el]; omega
  · rw [el]; omega
  · rw [el]; omega
  · intro h; rw [dl, dl, h]

theorem C15_reg_reg_imm_words_witness :
    gum_arm_writer_put_add_reg_reg_imm false
        (gum_arm_writer_reset blank_writer .GUM_OS_LINUX 4096) 1 2 5
      = gum_arm_writer_put_add_reg_reg_imm false
        (gum_arm_writer_reset blank_writer .GUM_OS_LINUX 4096) 1 2 4101 :=
  (C15_reg_reg_imm_words false (gum_arm_writer_reset blank_writer .GUM_OS_LINUX 4096) 1 2
    5 4101).1.2.2.2.2.2.2.2.2 (by decide)

/-- C16, the claim as stated fails: after a reset at the word-aligned address
4096 and `gum_arm_writer_skip` with `n_bytes = 1`, the cursor is 1 byte after
`base`, and the next instruction word is emitted at the unaligned address
4097. -/
theorem C16_skip_one_byte_counterexample :
    Reachable false skipped_byte_writer ∧
    skipped_byte_writer.base = 4096 ∧
    skipped_byte_writer.code = 4097 ∧
    ¬ ((skipped_byte_writer.code - skipped_byte_writer.base) % 4 = 0) ∧
    GUINT32_FROM_LE false
      (load32 false (gum_arm_writer_put_nop false skipped_byte_writer).mem 4097) = 0xe1a00000 :=
  ⟨skipped_byte_writer_reachable, by decide, by decide, by decide, by decide⟩

/-- C16, as amended: in every state reached from `gum_arm_writer_reset` at a
word-aligned address by any sequence of public operations, the cursor is at or
after `base`; and when every skip in the sequence has `n_bytes` a multiple of
4 (and every later reset is at a word-aligned address), the distance from
`base` to the cursor is a multiple of 4 and the cursor is word-aligned, so
every instruction word is emitted at a word-aligned position. -/
theorem C16_cursor_stays_word_aligned (be : Bool) (writer : GumArmWriter) (os : GumOS)
    (A : Nat) (ops : List Op) (hA : A % 4 = 0) (ht : ∀ op ∈ ops, op.typed) :
    (run be (gum_arm_writer_reset writer os A) ops).base
      ≤ (run be (gum_arm_writer_reset writer os A) ops).code ∧
    ((∀ op ∈ ops, op.word_aligned) →
      ((run be (gum_arm_writer_reset writer os A) ops).code
        - (run be (gum_arm_writer_reset writer os A) ops).base) % 4 = 0 ∧
      (run be (gum_arm_writer_reset writer os A) ops).code % 4 = 0) := by
  have h0 : Reachable be (gum_arm_writer_reset writer os A) := Reachable.init writer os A
  have hr := reachable_run be ops _ h0 ht
  refine ⟨(reachable_inv be _ hr).base_le, ?_⟩
  intro ha
  obtain ⟨hb, hc⟩ := run_aligned be ops _ h0 ht ha hA hA
  exact ⟨by omega, hc⟩

theorem C16_cursor_stays_word_aligned_witness :
    (run false (gum_arm_writer_reset blank_writer .GUM_OS_LINUX 4096)
      [Op.put_ldr_reg_u32 0 1, Op.skip 8, Op.flush]).code % 4 = 0 :=
  ((C16_cursor_stays_word_aligned false blank_writer .GUM_OS_LINUX 4096
    [Op.put_ldr_reg_u32 0 1, Op.skip 8, Op.flush] (by decide)
    (by simp [Op.typed])).2 (by simp [Op.word_aligned])).2

/-- C17: in every writer state reachable from `gum_arm_writer_reset` by any
sequence of public operations (so whenever a flush runs), the pending list
holds at most 100 entries, every pending entry's instruction slot lies at or
after `base` and wholly before the cursor, and distinct entries refer to
distinct, non-overlapping slots. -/
theorem C17_pending_reference_invariant (be : Bool) (s : GumArmWriter) (hs : Reachable be s) :
    PendingRefInv s ∧
    (∀ r ∈ s.literal_refs, r.insn + 4 ≤ s.code) ∧
    s.literal_refs.Pairwise (fun a b => a.insn + 4 ≤ b.insn) ∧
    PendingRefInv (gum_arm_writer_flush be s).2 := by
  have h := reachable_inv be s hs
  have hf := reachable_inv be _ (Reachable.step s Op.flush hs trivial)
  have key : ∀ t : GumArmWriter, Inv be t → PendingRefInv t := by
    intro t ht
    refine ⟨ht.count, fun r hr => ?_, ht.sorted.imp (fun hab => by omega)⟩
    have := ht.refs r hr
    exact ⟨this.1, by omega⟩
  exact ⟨key s h, fun r hr => (h.refs r hr).2.1, h.sorted, key _ hf⟩

theorem C17_pending_reference_invariant_witness : PendingRefInv one_load_writer :=
  (C17_pending_reference_invariant false one_load_writer one_load_writer_reachable).1

/-- C18: in every writer state reachable from `gum_arm_writer_reset` by any
sequence of public operations, the program counter is the numeric address of
the cursor modulo 2^64, so without address overflow it equals
`base + (cursor - base)`; and reset sets both to the code address, while
`gum_arm_writer_put_instruction`, a successful `gum_arm_writer_put_bytes`,
`gum_arm_writer_skip` and `gum_arm_writer_flush` each advance the cursor and
the program counter by the same number of bytes. -/
theorem C18_program_counter_follows_cursor (be : Bool) (s : GumArmWriter)
    (hs : Reachable be s) :
    s.pc = s.code % 2 ^ 64 ∧
    (s.code < 2 ^ 64 → s.pc = s.base + (s.code - s.base)) ∧
    (∀ os a, (gum_arm_writer_reset s os a).code = a ∧ (gum_arm_writer_reset s os a).base = a ∧
      (gum_arm_writer_reset s os a).pc = a % 2 ^ 64) ∧
    (∀ insn, (gum_arm_writer_put_instruction be s insn).code = s.code + 4 ∧
      (gum_arm_writer_put_instruction be s insn).pc = (s.pc + 4) % 2 ^ 64) ∧
    (∀ data, (gum_arm_writer_put_bytes s data).1 = true →
      (gum_arm_writer_put_bytes s data).2.code = s.code + data.length ∧
      (gum_arm_writer_put_bytes s data).2.pc = (s.pc + data.length) % 2 ^ 64) ∧
    (∀ n_bytes, (gum_arm_writer_skip s n_bytes).code = s.code + n_bytes ∧
      (gum_arm_writer_skip s n_bytes).pc = (s.pc + n_bytes) % 2 ^ 64) ∧
    (∃ n, (gum_arm_writer_flush be s).2.code = s.code + n ∧
      (gum_arm_writer_flush be s).2.pc = (s.pc + n) % 2 ^ 64) := by
  have hpc := reachable_pc be s hs
  have hinv := reachable_inv be s hs
  have hlt : s.pc < 2 ^ 64 := by rw [hpc]; exact Nat.mod_lt _ (by norm_num)
  refine ⟨hpc, ?_, fun os a => ⟨rfl, rfl, rfl⟩, fun insn => ⟨rfl, rfl⟩, ?_,
    fun n => ⟨rfl, rfl⟩, ?_⟩
  · intro hc
    have := hinv.base_le
    rw [hpc, Nat.mod_eq_of_lt hc]; omega
  · intro data hd
    have h4 : ¬ data.length % 4 ≠ 0 := by
      intro h
      have e : gum_arm_writer_put_bytes s data = (false, s) := by
        simp only [gum_arm_writer_put_bytes, if_pos h]
      rw [e] at hd
      simp at hd
    have e : gum_arm_writer_put_bytes s data = (true,
        { s with
          mem := gum_memcpy s.mem s.code data
          code := s.code + 4 * (data.length / 4)
          pc := (s.pc + data.length) % 2 ^ 64 }) := by
      simp only [gum_arm_writer_put_bytes, if_neg h4]
    rw [e]
    refine ⟨?_, rfl⟩
    show s.code + 4 * (data.length / 4) = s.code + data.length
    omega
  · obtain ⟨n, -, h2, h3, -⟩ := flush_code_pc be s hinv hlt
    exact ⟨n, h2, h3⟩

theorem C18_program_counter_follows_cursor_witness :
    one_load_writer.pc = one_load_writer.code % 2 ^ 64 :=
  (C18_program_counter_follows_cursor false one_load_writer one_load_writer_reachable).1

/-- C19: in every writer state that satisfies the pending-reference
invariant, `gum_arm_writer_flush` changes no byte before the pre-flush cursor
that is not part of an instruction word recorded in a pending reference,
changes no byte at or after the post-flush cursor, and leaves `base` and
`target_os` as they were; so an instruction that is not a pending constant
load is not altered by a flush. -/
theorem C19_flush_frame (be : Bool) (s : GumArmWriter) (h : PendingRefInv s) :
    (∀ x, x < s.code → (∀ r ∈ s.literal_refs, x < r.insn ∨ r.insn + 4 ≤ x) →
      (gum_arm_writer_flush be s).2.mem x = s.mem x) ∧
    (∀ x, (gum_arm_writer_flush be s).2.code ≤ x →
      (gum_arm_writer_flush be s).2.mem x = s.mem x) ∧
    (∀ a, a + 4 ≤ s.code → (∀ r ∈ s.literal_refs, a + 4 ≤ r.insn ∨ r.insn + 4 ≤ a) →
      load32 be (gum_arm_writer_flush be s).2.mem a = load32 be s.mem a) ∧
    (gum_arm_writer_flush be s).2.base = s.base ∧
    (gum_arm_writer_flush be s).2.target_os = s.target_os := by
  obtain ⟨f1, f2, -, f4, f5⟩ := flush_frame be s
  refine ⟨fun x hx hr => f5 x hr (Or.inl hx), ?_, ?_, f1, f2⟩
  · intro x hx
    by_cases hne : s.literal_refs = []
    · rw [flush_empty be s hne]
    · apply f5 x _ (Or.inr hx)
      intro r hr
      have := (h.2.1 r hr).2
      have := f4 hne
      right; omega
  · intro a ha hr
    apply load32_congr
    intro j hj
    apply f5 _ _ (Or.inl (by omega))
    intro r hrm
    rcases hr r hrm with h1 | h1
    · left; omega
    · right; omega

theorem C19_flush_frame_witness :
    (gum_arm_writer_flush false one_load_writer).2.base = one_load_writer.base ∧
    (gum_arm_writer_flush false one_load_writer).2.target_os = one_load_writer.target_os :=
  (C19_flush_frame false one_load_writer
    (inv_pending_ref_inv false one_load_writer
      (reachable_inv false one_load_writer one_load_writer_reachable))).2.2.2

/-- C20: when the byte distance `d = target - (program_counter + 8)` is within
the signed 26-bit range but is not a multiple of 4, `gum_arm_writer_put_b_imm`
returns TRUE and the offset field of the emitted branch holds `d / 4` rounded
toward zero; the branch decodes to an address on the same side of
`program_counter + 8` as the target and 1 to 3 bytes nearer to it. -/
theorem C20_unaligned_branch_rounds_toward_zero (be : Bool) (s : GumArmWriter) (target : Nat)
    (hr : -33554432 ≤ (target : Int) - ((s.pc : Int) + 8) ∧
      (target : Int) - ((s.pc : Int) + 8) ≤ 33554431)
    (hn : ((target : Int) - ((s.pc : Int) + 8)) % 4 ≠ 0) :
    (gum_arm_writer_put_b_imm be s target).1 = true ∧
    b_word_offset (GUINT32_FROM_LE be
      (load32 be (gum_arm_writer_put_b_imm be s target).2.mem s.code))
      = Int.tdiv ((target : Int) - ((s.pc : Int) + 8)) 4 ∧
    ((target : Int) - ((s.pc : Int) + 8) > 0 →
      (s.pc : Int) + 8 ≤ b_target s.pc (GUINT32_FROM_LE be
        (load32 be (gum_arm_writer_put_b_imm be s target).2.mem s.code)) ∧
      1 ≤ (target : Int) - b_target s.pc (GUINT32_FROM_LE be
        (load32 be (gum_arm_writer_put_b_imm be s target).2.mem s.code)) ∧
      (target : Int) - b_target s.pc (GUINT32_FROM_LE be
        (load32 be (gum_arm_writer_put_b_imm be s target).2.mem s.code)) ≤ 3) ∧
    ((target : Int) - ((s.pc : Int) + 8) < 0 →
      b_target s.pc (GUINT32_FROM_LE be
        (load32 be (gum_arm_writer_put_b_imm be s target).2.mem s.code)) ≤ (s.pc : Int) + 8 ∧
      1 ≤ b_target s.pc (GUINT32_FROM_LE be
        (load32 be (gum_arm_writer_put_b_imm be s target).2.mem s.code)) - (target : Int) ∧
      b_target s.pc (GUINT32_FROM_LE be
        (load32 be (gum_arm_writer_put_b_imm be s target).2.mem s.code)) - (target : Int) ≤ 3) := by
  have hd : ((target : Int) - ((s.pc : Int) + 8) + 2147483648) % 4294967296 - 2147483648
      = (target : Int) - ((s.pc : Int) + 8) := by omega
  have hok : (gum_arm_writer_put_b_imm be s target).1 = true := by
    rw [put_b_imm_true_iff, hd]; exact hr
  have ht := tdiv_four ((target : Int) - ((s.pc : Int) + 8))
  rw [put_b_imm_ok be s target hok, hd, b_word_eq]
  have hlt : 0xea000000 + ((Int.tdiv ((target : Int) - ((s.pc : Int) + 8)) 4
      % 4294967296).toNat) % 2 ^ 24 < 2 ^ 32 := by omega
  have hw : GUINT32_FROM_LE be (load32 be (gum_arm_writer_put_instruction be s
      (0xea000000 + ((Int.tdiv ((target : Int) - ((s.pc : Int) + 8)) 4
        % 4294967296).toNat) % 2 ^ 24)).mem s.code)
      = 0xea000000 + ((Int.tdiv ((target : Int) - ((s.pc : Int) + 8)) 4
        % 4294967296).toNat) % 2 ^ 24 := put_instruction_word be s _ hlt
  simp only
  rw [hw]
  have hoff : b_word_offset (0xea000000 + ((Int.tdiv ((target : Int) - ((s.pc : Int) + 8)) 4
      % 4294967296).toNat) % 2 ^ 24) = Int.tdiv ((target : Int) - ((s.pc : Int) + 8)) 4 := by
    unfold b_word_offset
    split at ht <;> split <;> omega
  refine ⟨trivial, hoff, ?_, ?_⟩
  · intro hpos
    unfold b_target
    rw [hoff]
    rw [if_pos (by omega)] at ht
    omega
  · intro hneg
    unfold b_target
    rw [hoff]
    rw [if_neg (by omega)] at ht
    omega

theorem C20_unaligned_branch_rounds_toward_zero_witness :
    (gum_arm_writer_put_b_imm false (gum_arm_writer_reset blank_writer .GUM_OS_LINUX 4096)
      4095).1 = true :=
  (C20_unaligned_branch_rounds_toward_zero false
    (gum_arm_writer_reset blank_writer .GUM_OS_LINUX 4096) 4095 (by decide) (by decide)).1

end GumArm
